import Mathlib

/-
Verification development for the RGSPL APL interpreter.

Shallow embedding of the Python sources (arraymodel.py, functions.py,
moperators.py, rgspl.py) into Lean.  Modelling conventions:

* Python numbers (int / float / complex) are `Num`.  Floats are modelled as
  exact rationals: the claims under study depend only on type tags, signs and
  exact integer arithmetic, never on IEEE rounding.
* An `APLArray` instance is `PyVal.arr shape data` when its `data` attribute
  is a Python list, and `PyVal.arrRaw shape v` when the `data` attribute holds
  a bare non-list object `v` (a number or another array) — such malformed
  instances are actually produced by `Interpreter.visit_S`, by the
  diaeresis operator on scalar results, and by one branch of `pervade`.
* A bare Python number appearing as a list element is `PyVal.num`.
* Raised exceptions are modelled with `Except PErr`; each constructor of
  `PErr` names the Python exception class raised at the corresponding source
  location, with its message.
* Python truthiness: a list is truthy iff non-empty, a number iff non-zero,
  `None` is falsy, and an `APLArray` instance (which defines neither
  `__bool__` nor `__len__`) is always truthy.
* Shapes are lists of Python integers, modelled as `List ℤ`.
* The unbounded recursion of `pervade` and of the tokenizer loop is modelled
  with an explicit fuel argument; the public wrappers supply fuel large
  enough that it is never exhausted on the inputs of interest.
-/

namespace RGSPL

/-- Python numbers: int, float or complex.  Floats and the two components of a
complex number are modelled as exact rationals. -/
inductive Num where
  | int : ℤ → Num
  | float : ℚ → Num
  | cpx : ℚ → ℚ → Num
deriving DecidableEq, Repr

/-- The value of a Python number as a complex pair (re, im); Python's numeric
`==` compares numbers through exactly this common embedding. -/
def Num.toC : Num → ℚ × ℚ
  | .int z => ((z : ℚ), 0)
  | .float q => (q, 0)
  | .cpx re im => (re, im)

/-- Python numeric equality `==` across int/float/complex.  Two ints are
compared directly; mixed kinds compare through the common complex value. -/
def numEqB : Num → Num → Bool
  | .int a, .int b => decide (a = b)
  | a, b => decide (a.toC = b.toC)

/-- Python truthiness of a number: non-zero. -/
def numTruthy : Num → Bool
  | .int z => decide (z ≠ 0)
  | a => decide (a.toC ≠ ((0 : ℚ), (0 : ℚ)))

/-- Whether the result type of a binary arithmetic operation is complex /
float / int, following Python numeric promotion. -/
def Num.isCpx : Num → Bool
  | .cpx _ _ => true
  | _ => false

/-- Whether a Python number is a float. -/
def Num.isFloat : Num → Bool
  | .float _ => true
  | _ => false

/-- Rebuild a number of the promoted type of `a` and `b` from an exact
complex value, following Python promotion (complex beats float beats int). -/
def promote (a b : Num) (re im : ℚ) : Num :=
  if a.isCpx || b.isCpx then .cpx re im
  else if a.isFloat || b.isFloat then .float re
  else .int re.num

/-- Python `a + b` on numbers (exact model; int + int stays int). -/
def numAdd : Num → Num → Num
  | .int a, .int b => .int (a + b)
  | a, b => promote a b (a.toC.1 + b.toC.1) (a.toC.2 + b.toC.2)

/-- Python `a * b` on numbers (exact model; int * int stays int). -/
def numMul : Num → Num → Num
  | .int a, .int b => .int (a * b)
  | a, b =>
    promote a b (a.toC.1 * b.toC.1 - a.toC.2 * b.toC.2)
      (a.toC.1 * b.toC.2 + a.toC.2 * b.toC.1)

/-- Python `x.conjugate()`; preserves the numeric type, as in Python. -/
def numConjugate : Num → Num
  | .int z => .int z
  | .float q => .float q
  | .cpx re im => .cpx re (-im)

/-- Python exceptions raised by the modelled code, with their messages. -/
inductive PErr where
  | attributeError : String → PErr
  | typeError : String → PErr
  | indexError : String → PErr
  | valueError : String → PErr
  | zeroDivisionError : String → PErr
  | syntaxError : String → PErr
  | notImplementedError : String → PErr
  | exception : String → PErr
  | outOfFuel : PErr
deriving DecidableEq, Repr

mutual
/-- A runtime value of the interpreter: a bare Python number, an `APLArray`
whose `data` attribute is a list, or an `APLArray` whose `data` attribute is a
bare non-list object (number or array) — the malformed form that
`Interpreter.visit_S`, diaeresis and one branch of `pervade` construct. -/
inductive PyVal where
  | num : Num → PyVal
  | arr : List ℤ → PyList → PyVal
  | arrRaw : List ℤ → PyVal → PyVal

/-- A Python list of runtime values (the `data` attribute of a well-formed
`APLArray`). -/
inductive PyList where
  | nil : PyList
  | cons : PyVal → PyList → PyList
end

instance : Inhabited PyVal := ⟨.num (.int 0)⟩

/-- Convert an embedded data list to a Lean list. -/
def PyList.toList : PyList → List PyVal
  | .nil => []
  | .cons x xs => x :: xs.toList

/-- Convert a Lean list to an embedded data list. -/
def PyList.ofList : List PyVal → PyList
  | [] => .nil
  | x :: xs => .cons x (PyList.ofList xs)

theorem PyList.toList_ofList (l : List PyVal) : (PyList.ofList l).toList = l := by
  induction l with
  | nil => rfl
  | cons x xs ih => simp [PyList.ofList, PyList.toList, ih]

mutual
/-- Executable structural size of a value, used as a fuel bound. -/
def psize : PyVal → ℕ
  | .num _ => 1
  | .arr _ d => psizeL d + 1
  | .arrRaw _ v => psize v + 1

/-- Executable structural size of a data list. -/
def psizeL : PyList → ℕ
  | .nil => 1
  | .cons x xs => psize x + psizeL xs + 1
end

mutual
/-- Python `==` between runtime values (`APLArray.__eq__` compares shape and
data structurally; numbers compare through their complex value; a list never
equals a non-list; an `APLArray` never equals a number). -/
def pyEqB : PyVal → PyVal → Bool
  | .num a, .num b => numEqB a b
  | .arr s d, .arr t e => decide (s = t) && pyListEqB d e
  | .arrRaw s x, .arrRaw t y => decide (s = t) && pyEqB x y
  | _, _ => false

/-- Python `==` between two data lists: equal length and element-wise equal. -/
def pyListEqB : PyList → PyList → Bool
  | .nil, .nil => true
  | .cons x xs, .cons y ys => pyEqB x y && pyListEqB xs ys
  | _, _ => false
end

/-! ### Attribute access and the array-model methods (arraymodel.py) -/

/-- Accessing `v.shape`; raises `AttributeError` on a bare number. -/
def getShape : PyVal → Except PErr (List ℤ)
  | .num _ => .error (.attributeError "shape")
  | .arr s _ => .ok s
  | .arrRaw s _ => .ok s

/-- Reading `v.data` and using it as a list (iteration, `len`, zip); raises
`AttributeError` on a bare number, `TypeError` when `data` is not a list. -/
def dataList : PyVal → Except PErr (List PyVal)
  | .num _ => .error (.attributeError "data")
  | .arr _ d => .ok d.toList
  | .arrRaw _ _ => .error (.typeError "data attribute is not a list")

/-- Evaluating `v.data[0]`: `AttributeError` on a bare number, `TypeError`
when `data` is not subscriptable, `IndexError` when the list is empty. -/
def data0 : PyVal → Except PErr PyVal
  | .num _ => .error (.attributeError "data")
  | .arr _ (.cons e _) => .ok e
  | .arr _ .nil => .error (.indexError "list index out of range")
  | .arrRaw _ _ => .error (.typeError "object is not subscriptable")

/-- `APLArray.is_scalar`: empty shape.  The `and` in `is_simple_scalar`
short-circuits, so `data[0]` is only evaluated when the shape is empty. -/
def isScalarB : PyVal → Except PErr Bool
  | .num _ => .error (.attributeError "shape")
  | .arr s _ => .ok (decide (s = []))
  | .arrRaw s _ => .ok (decide (s = []))

/-- `APLArray.is_simple_scalar`: empty shape and `data[0]` not an `APLArray`.
`data[0]` is only touched when the shape is empty (Python `and`
short-circuits). -/
def isSimpleScalarB (v : PyVal) : Except PErr Bool := do
  match v with
  | .num _ => .error (.attributeError "shape")
  | .arr [] d =>
      match d with
      | .cons (.num _) _ => .ok true
      | .cons _ _ => .ok false
      | .nil => .error (.indexError "list index out of range")
  | .arr _ _ => .ok false
  | .arrRaw [] _ => .error (.typeError "object is not subscriptable")
  | .arrRaw _ _ => .ok false

/-- `APLArray.at_least_vector`: promote a simple scalar to a 1-element
vector, otherwise return the value unchanged. -/
def atLeastVector (v : PyVal) : Except PErr PyVal := do
  let s ← isSimpleScalarB v
  if s then .ok (.arr [1] (.cons v .nil)) else .ok v

/-- `len(v.data)` — the quantity constrained by the array-model invariant
`len(data) == product(shape)`; raises `TypeError` when `data` is not a
list (bare numbers and bare arrays have no `len`). -/
def lenData : PyVal → Except PErr ℕ
  | .num _ => .error (.attributeError "data")
  | .arr _ d => .ok d.toList.length
  | .arrRaw _ _ => .error (.typeError "object has no len")

/-- `math.prod` over a list of Python integers (initial value 1). -/
def prodZ (l : List ℤ) : ℤ := l.foldl (· * ·) 1

/-- The helper `S` from arraymodel.py: `APLArray([], [v])`, wrapping a raw
value as a well-formed scalar array. -/
def Sv (v : PyVal) : PyVal := .arr [] (.cons v .nil)

/-- A simple scalar array holding an integer. -/
def Sint (z : ℤ) : PyVal := Sv (.num (.int z))

/-- The well-formed integer vector holding the entries of `l` — the form in
which an integer vector reaches a primitive. -/
def intVec (l : List ℤ) : PyVal :=
  .arr [(l.length : ℤ)] (.ofList (l.map Sint))

/-! ### Python list slicing helpers -/

/-- Every `step`-th element of a list starting from its head, i.e. Python
`l[::step]` for a positive step (the code only ever uses positive steps;
Python raises `ValueError` on step 0, never reached here). -/
def everyNth (l : List α) (step : ℕ) : List α :=
  (l.enum.filter (fun p => p.1 % step = 0)).map Prod.snd

/-- Python `l[start::step]` for non-negative start and positive step. -/
def sliceFrom (l : List α) (start step : ℕ) : List α :=
  everyNth (l.drop start) step

/-- Python slice assignment `l[start::step] = new`.  For step 1 this is a
plain slice assignment replacing everything from `start` on; for larger
steps it is an extended slice assignment scattering `new` over the positions
`start, start+step, …` (the code always supplies `new` with exactly the
length of the slice, as CPython requires). -/
def pySetSlice (l : List α) (start step : ℕ) (new : List α) : List α :=
  if step = 1 then l.take start ++ new
  else l.mapIdx (fun i x =>
    if start ≤ i ∧ (i - start) % step = 0 ∧ (i - start) / step < new.length
    then new.getD ((i - start) / step) x else x)

/-- Python `l[:k]` for an integer `k` (negative `k` counts from the end). -/
def pyTake (l : List α) (k : ℤ) : List α :=
  if 0 ≤ k then l.take k.toNat else l.take ((l.length : ℤ) + k).toNat

/-- Python `l * m` for an integer `m` (non-positive `m` gives `[]`). -/
def pyListMul (l : List α) (m : ℤ) : List α :=
  (List.replicate m.toNat l).flatten

/-- `math.ceil(a / b)` on Python integers: true division followed by
ceiling.  For any non-zero `b` this equals `-((-a) fdiv b)` since
`⌈x⌉ = -⌊-x⌋` and `Int.fdiv` is floor division; the only call site guards
against `b = 0` (Python raises `ZeroDivisionError` there). -/
def ceilDiv (a b : ℤ) : ℤ := -(Int.fdiv (-a) b)

/-! ### Pervasion (functions.py, `pervade`) -/

/-- `pervade`'s recursive worker `pervasive_func`, with explicit fuel.
`f` is the wrapped scalar function, taking Python's `alpha` (None for a
monadic call) and `omega` leaf numbers.  Every branch mirrors the decorator
in functions.py lines 13–52, including the final catch-all branch that
stores a bare `APLArray` in the `data` attribute. -/
def pervadeF (f : Option Num → Num → Except PErr Num) :
    ℕ → Option PyVal → PyVal → Except PErr PyVal
  | 0, _, _ => .error .outOfFuel
  | fuel+1, none, om => do
      let osh ← getShape om
      if osh ≠ [] then do
        let elems ← dataList om
        let ds ← elems.mapM (pervadeF f fuel none)
        .ok (.arr osh (.ofList ds))
      else do
        let e ← data0 om
        match e with
        | .num x => do
            let r ← f none x
            .ok (.arr osh (.cons (.num r) .nil))
        | _ => do
            let r ← pervadeF f fuel none e
            .ok (.arr osh (.cons r .nil))
  | fuel+1, some al, om => do
      let ash ← getShape al
      let osh ← getShape om
      if ash ≠ [] ∧ osh ≠ [] then
        if ash ≠ osh then .error (.indexError "Mismatched left and right shapes.")
        else do
          let oes ← dataList om
          let aes ← dataList al
          let ds ← (oes.zip aes).mapM (fun p => pervadeF f fuel (some p.2) p.1)
          .ok (.arr ash (.ofList ds))
      else if ash ≠ [] then do
        let simple ← isSimpleScalarB om
        let w ← if simple then pure om else data0 om
        let aes ← dataList al
        let ds ← aes.mapM (fun a => pervadeF f fuel (some a) w)
        .ok (.arr ash (.ofList ds))
      else if osh ≠ [] then do
        let simple ← isSimpleScalarB al
        let a ← if simple then pure al else data0 al
        let oes ← dataList om
        let ds ← oes.mapM (fun w => pervadeF f fuel (some a) w)
        .ok (.arr osh (.ofList ds))
      else do
        let sa ← isSimpleScalarB al
        let so ← isSimpleScalarB om
        if sa ∧ so then do
          let w ← data0 om
          let x ← data0 al
          match x, w with
          | .num xn, .num wn => do
              let r ← f (some xn) wn
              .ok (.arr [] (.cons (.num r) .nil))
          | _, _ => .error (.typeError "unsupported operand types")
        else do
          let a ← if sa then pure al else data0 al
          let w ← if so then pure om else data0 om
          let r ← pervadeF f fuel (some a) w
          .ok (.arrRaw [] r)

/-- Fuel sufficient for `pervadeF`: every recursive call strictly decreases
the combined size of its arguments. -/
def pervadeFuel : Option PyVal → PyVal → ℕ
  | none, om => psize om + 1
  | some al, om => psize al + psize om + 1

/-- The pervasion decorator applied to a scalar function `f`: the public
entry point of a pervasive primitive. -/
def pervade (f : Option Num → Num → Except PErr Num)
    (al : Option PyVal) (om : PyVal) : Except PErr PyVal :=
  pervadeF f (pervadeFuel al om) al om

/-! ### Scalar functions lifted by pervasion (functions.py) -/

/-- The scalar function of `+`: monadic complex conjugate, dyadic addition. -/
def plusLeaf (al : Option Num) (om : Num) : Except PErr Num :=
  match al with
  | none => .ok (numConjugate om)
  | some a => .ok (numAdd a om)

/-- The pervasive primitive `+`. -/
def plus : Option PyVal → PyVal → Except PErr PyVal := pervade plusLeaf

/-- `math.ceil` on a Python number: identity on ints, rational ceiling on
floats (returning an int), `TypeError` on complex numbers. -/
def mathCeil : Num → Except PErr Num
  | .int z => .ok (.int z)
  | .float q => .ok (.int ⌈q⌉)
  | .cpx _ _ => .error (.typeError "can't convert complex to float")

/-- `math.floor` on a Python number. -/
def mathFloor : Num → Except PErr Num
  | .int z => .ok (.int z)
  | .float q => .ok (.int ⌊q⌋)
  | .cpx _ _ => .error (.typeError "can't convert complex to float")

/-- Python `b > a` on numbers; ordering complex numbers is a `TypeError`. -/
def numGtB (b a : Num) : Except PErr Bool :=
  match b, a with
  | .cpx _ _, _ => .error (.typeError "'>' not supported for complex")
  | _, .cpx _ _ => .error (.typeError "'>' not supported for complex")
  | .int b, .int a => .ok (decide (a < b))
  | b, a => .ok (decide (a.toC.1 < b.toC.1))

/-- Python `max(a, b)`: returns `b` exactly when `b > a`. -/
def pyMax (a b : Num) : Except PErr Num := do
  let g ← numGtB b a
  .ok (if g then b else a)

/-- Python `min(a, b)`: returns `b` exactly when `b < a`. -/
def pyMin (a b : Num) : Except PErr Num := do
  let g ← numGtB a b
  .ok (if g then b else a)

/-- Whether a value is a Python `complex` instance — the `isinstance(alpha,
complex)` test from `ceiling`/`floor`, applied to the possibly-absent
`alpha` argument (`isinstance(None, complex)` is `False`). -/
def isinstanceComplex : Option Num → Bool
  | some (.cpx _ _) => true
  | _ => false

/-- The scalar function of `⌈` exactly as written in functions.py lines
166–184: the monadic branch tests `isinstance(alpha, complex)` — but `alpha`
is `None` there, so the `NotImplementedError` is unreachable and
`math.ceil(omega)` is always evaluated. -/
def ceilingLeaf (al : Option Num) (om : Num) : Except PErr Num :=
  match al with
  | none =>
      if isinstanceComplex none then
        .error (.notImplementedError "Complex ceiling not implemented yet.")
      else mathCeil om
  | some a => pyMax a om

/-- The scalar function of `⌊`, mirroring functions.py lines 186–204 with
the same dead `isinstance(alpha, complex)` test. -/
def floorLeaf (al : Option Num) (om : Num) : Except PErr Num :=
  match al with
  | none =>
      if isinstanceComplex none then
        .error (.notImplementedError "Complex floor not implemented yet.")
      else mathFloor om
  | some a => pyMin a om

/-- The pervasive primitive `⌈` (monadic ceiling / dyadic max). -/
def ceiling : Option PyVal → PyVal → Except PErr PyVal := pervade ceilingLeaf

/-- The pervasive primitive `⌊` (monadic floor / dyadic min). -/
def floor : Option PyVal → PyVal → Except PErr PyVal := pervade floorLeaf

/-! ### Structural primitives (functions.py) -/

/-- Indexing a list of integers, Python `l[i]` for non-negative `i`. -/
def pyIndexZ (l : List ℤ) (i : ℕ) : Except PErr ℤ :=
  match l.get? i with
  | some v => .ok v
  | none => .error (.indexError "list index out of range")

/-- Python `l[-1]` on a list of integers. -/
def pyLast (l : List ℤ) : Except PErr ℤ :=
  match l.getLast? with
  | some v => .ok v
  | none => .error (.indexError "list index out of range")

/-- Using a data-list element as a Python number; a nested `APLArray` in a
numeric position raises `TypeError` in the arithmetic that consumes it. -/
def expectNum : PyVal → Except PErr Num
  | .num n => .ok n
  | _ => .error (.typeError "unsupported operand type")

/-- `lshoe` (`⊂`): monadic enclose; simple scalars are returned unchanged,
anything else is wrapped as a rank-0 array; the dyadic case is
unimplemented. -/
def lshoe (al : Option PyVal) (om : PyVal) : Except PErr PyVal :=
  match al with
  | none => do
      let s ← isSimpleScalarB om
      if s then .ok om else .ok (.arr [] (.cons om .nil))
  | some _ => .error (.notImplementedError "Partitioned Enclose not implemented yet.")

/-- `rho` (`⍴`): monadic shape, dyadic reshape with cyclic fill. -/
def rho (al : Option PyVal) (om : PyVal) : Except PErr PyVal :=
  match al with
  | none => do
      let sh ← getShape om
      .ok (.arr [(sh.length : ℤ)] (.ofList (sh.map (fun i => Sv (.num (.int i))))))
  | some a => do
      let ash ← getShape a
      if ash.length > 1 then
        .error (.valueError "Left argument of reshape cannot have that rank.")
      else do
        let sc ← isScalarB a
        let shapeVals ← (if sc then do
            let e ← data0 a
            pure [e]
          else do
            let d ← dataList a
            d.mapM data0)
        let shape ← shapeVals.mapM (fun e => match e with
          | .num (.int z) => Except.ok z
          | _ => .error (.typeError "Left argument of reshape expects integers."))
        let osh ← getShape om
        let dataFrom ← if osh.length > 0 then dataList om else pure [om]
        if dataFrom.length = 0 then
          .error (.zeroDivisionError "division by zero")
        else do
          let data := pyTake (pyListMul dataFrom (ceilDiv (prodZ shape) dataFrom.length))
            (prodZ shape)
          .ok (.arr shape (.ofList data))

/-- `APLArray.n_cells`: the n-cell decomposition from arraymodel.py. -/
def n_cells (v : PyVal) (n : ℤ) : Except PErr PyVal :=
  if n = 0 then .ok v
  else do
    let sh ← getShape v
    let r : ℤ := sh.length
    if n > r then .error (.valueError "Array does not have n-cells of that rank.")
    else if r = n then .ok (Sv v)
    else do
      let d ← dataList v
      let resultShape := sh.take (r - n).toNat
      let cellShape := sh.drop (r - n).toNat
      let size := (prodZ cellShape).toNat
      let cells := (List.range (prodZ resultShape).toNat).map
        (fun i => PyVal.arr cellShape (.ofList ((d.take ((i + 1) * size)).drop (i * size))))
      .ok (.arr resultShape (.ofList cells))

/-! ### Decode and encode (functions.py, `⊥` and `⊤`) -/

/-- One step of `_decode`'s loop: `acc += acc_prod * o; acc_prod *= a`
(`TypeError` when a nested array reaches the arithmetic). -/
def decodeStep (st : Num × Num) (p : PyVal × PyVal) : Except PErr (Num × Num) := do
  let o ← expectNum p.2
  let a ← expectNum p.1
  pure (numAdd st.1 (numMul st.2 o), numMul st.2 a)

/-- The `_decode` helper: mixed-radix evaluation of one digit vector against
one radix vector, folding right-to-left with an accumulated product. -/
def decodeCell (alpha omega : PyVal) : Except PErr PyVal := do
  let ad ← dataList alpha
  let alphas ← ad.mapM data0
  let od ← dataList omega
  let omegas ← od.mapM data0
  let st ← (alphas.reverse.zip omegas.reverse).foldlM decodeStep
    ((.int 0 : Num), (.int 1 : Num))
  .ok (Sv (.num st.1))

/-- `decode` (`⊥`), the dyadic mixed-radix evaluation primitive. -/
def decode (al : Option PyVal) (om : PyVal) : Except PErr PyVal :=
  match al with
  | none => .error (.syntaxError "decode is a dyadic function.")
  | some alpha => do
      let ash ← getShape alpha
      let osh0 ← getShape om
      let finalShape := ash.dropLast ++ osh0.drop 1
      let omega ← atLeastVector om
      let oshV ← getShape omega
      let sa ← isSimpleScalarB alpha
      let alpha2 ← if sa ∨ ash = [1] then do
          let h ← pyIndexZ oshV 0
          rho (some (Sv (.num (.int h)))) alpha
        else pure alpha
      let ash2 ← getShape alpha2
      let oh ← pyIndexZ oshV 0
      let alast ← pyLast ash2
      let omega2 ← if oh ≠ alast then
          if oh ≠ 1 then
            .error (.indexError "Trailing dimension of alpha should match leading dimension of omega in decode.")
          else do
            let tvals := ([alast] ++ oshV.drop 1).map (fun v => Sv (.num (.int v)))
            rho (some (.arr [(oshV.length : ℤ)] (.ofList tvals))) omega
        else pure omega
      let osh2 ← getShape omega2
      let dist := (prodZ (osh2.drop 1)).toNat
      let od ← dataList omega2
      let oh2 ← pyIndexZ osh2 0
      let faceData := (List.range dist).map
        (fun i => PyVal.arr [oh2] (.ofList (sliceFrom od i dist)))
      let cells ← n_cells alpha2 1
      let cdata ← dataList cells
      let rows ← cdata.mapM (fun a => faceData.mapM (fun o => decodeCell a o))
      let data := rows.flatten
      if finalShape ≠ [] then .ok (.arr finalShape (.ofList data))
      else match data with
        | x :: _ => .ok x
        | [] => .error (.indexError "list index out of range")

/-- Python `divmod(a, b)` on numbers: floor division and remainder; exact on
ints, modelled exactly over ℚ for floats; complex operands are a
`TypeError`, zero divisors a `ZeroDivisionError`. -/
def pyDivmod : Num → Num → Except PErr (Num × Num)
  | .int a, .int b =>
      if b = 0 then .error (.zeroDivisionError "integer division or modulo by zero")
      else .ok (.int (Int.fdiv a b), .int (Int.fmod a b))
  | .cpx _ _, _ => .error (.typeError "can't take floor of complex number.")
  | _, .cpx _ _ => .error (.typeError "can't take floor of complex number.")
  | a, b =>
      if b.toC.1 = 0 then .error (.zeroDivisionError "float divmod")
      else
        .ok (.float (⌊a.toC.1 / b.toC.1⌋ : ℤ),
          .float (a.toC.1 - b.toC.1 * (⌊a.toC.1 / b.toC.1⌋ : ℤ)))

/-- Python `a % b` on numbers — the remainder component of `divmod`. -/
def pyMod (a b : Num) : Except PErr Num := do
  let p ← pyDivmod a b
  pure p.2

/-- `math.prod` over a list of Python numbers (initial value the int 1). -/
def numProd (l : List Num) : Num := l.foldl numMul (.int 1)

/-- One step of `_encode`'s loop: `n, b = divmod(n, m) if m != 0 else
(0, n); bs.append(b)`. -/
def encodeStep (st : Num × List Num) (m : Num) : Except PErr (Num × List Num) :=
  if !(numEqB m (.int 0)) then do
    let p ← pyDivmod st.1 m
    pure (p.1, st.2 ++ [p.2])
  else pure ((.int 0 : Num), st.2 ++ [st.1])

/-- The `_encode` helper from functions.py: reduce `n` modulo the product of
the radices (or modulo `n + 1` when a radix is zero), then extract digits by
repeated `divmod` from the least significant radix. -/
def encodeScalar (radices : List Num) (n : Num) : Except PErr (List Num) := do
  let base := if radices.all (fun m => !(numEqB m (.int 0))) then numProd radices
    else numAdd n (.int 1)
  let n1 ← pyMod n base
  let st ← radices.reverse.foldlM encodeStep ((n1 : Num), ([] : List Num))
  .ok st.2.reverse

/-- `encode` (`⊤`), the dyadic mixed-radix digit-extraction primitive.  The
radix vectors are the first-axis enclosure of `alpha`; each digit vector is
scattered into the result's first-axis enclosure by extended slice
assignment. -/
def encode (al : Option PyVal) (om : PyVal) : Except PErr PyVal :=
  match al with
  | none => .error (.syntaxError "encode is a dyadic function.")
  | some alpha => do
      let ash ← getShape alpha
      let osh ← getShape om
      let resultShape := ash ++ osh
      let alphaV ← atLeastVector alpha
      let rd0 := List.replicate (prodZ resultShape).toNat (PyVal.num (.int 0))
      let alshV ← getShape alphaV
      let dist := (prodZ (alshV.drop 1)).toNat
      let rdist := (prodZ (resultShape.drop 1)).toNat
      let ad ← dataList alphaV
      let omV ← atLeastVector om
      let od ← dataList omV
      let oprod := (prodZ osh).toNat
      let resultData ← (List.range dist).foldlM (fun rd i => do
          let rads ← (sliceFrom ad i dist).mapM data0
          let radices ← rads.mapM expectNum
          od.enum.foldlM (fun rd2 js => do
              let sv ← data0 js.2
              let nv ← expectNum sv
              let digits ← encodeScalar radices nv
              pure (pySetSlice rd2 (i * oprod + js.1) rdist
                (digits.map (fun d => Sv (.num d)))))
            rd)
        rd0
      if resultShape ≠ [] then .ok (.arr resultShape (.ofList resultData))
      else match resultData with
        | x :: _ => .ok x
        | [] => .error (.indexError "list index out of range")

/-! ### Operators (moperators.py) and literal evaluation (rgspl.py) -/

/-- The commute operator `⍨` from moperators.py: the derived function
replaces a missing left argument by the right one, then calls the operand
with the two arguments swapped. -/
def commute (aalpha : Option PyVal → PyVal → Except PErr PyVal) :
    Option PyVal → PyVal → Except PErr PyVal :=
  fun alpha omega =>
    let alpha2 := match alpha with | none => omega | some a => a
    aalpha (some omega) alpha2

/-- The diaeresis (each) operator `¨` from moperators.py.  Note the scalar
case: `data = data[0]` stores the result array itself, not a one-element
list, in the `data` attribute of the returned array. -/
def diaeresis (aalpha : Option PyVal → PyVal → Except PErr PyVal)
    (al : Option PyVal) (om : PyVal) : Except PErr PyVal := do
  let shape ← (match al with
    | some a => do
        let ash ← getShape a
        let osh ← getShape om
        if ash ≠ [] ∧ osh ≠ [] then
          if ash.length ≠ osh.length then
            .error (.valueError "Mismatched ranks of left and right arguments.")
          else if ash ≠ osh then
            .error (.indexError "Left and right arguments must have the same dimensions.")
          else pure (if ash ≠ [] then ash else osh)
        else pure (if ash ≠ [] then ash else osh)
    | none => getShape om)
  let l := (prodZ shape).toNat
  let osh ← getShape om
  let omegas ← if osh ≠ [] then dataList om else pure (List.replicate l om)
  let alphas ← (match al with
    | none => pure (List.replicate l (none : Option PyVal))
    | some a => do
        let ash ← getShape a
        if ash ≠ [] then do
          let ad ← dataList a
          pure (ad.map some)
        else pure (List.replicate l (some a)))
  let data ← (omegas.zip alphas).mapM (fun p => aalpha p.2 p.1)
  if shape ≠ [] then .ok (.arr shape (.ofList data))
  else match data with
    | r :: _ => .ok (.arrRaw [] r)
    | [] => .error (.indexError "list index out of range")

/-- `Interpreter.visit_S` from rgspl.py line 578: evaluating a literal
scalar builds `APLArray([], scalar.value)` — the `data` attribute holds the
bare token value, not a one-element list. -/
def visit_S (v : Num) : PyVal := .arrRaw [] (.num v)

/-! ### Well-formed arrays and the specification-side leaf map -/

mutual
/-- A well-formed `APLArray` all of whose scalar positions hold simple
scalars: the `data` attribute is a list, a scalar holds exactly one bare
number, and a shaped array holds such arrays.  (This is the class of arrays
on which the spec's pervasion broadcast law will be assessed; enclosed
scalars — rank-0 arrays holding a nested array — are exactly what the
correction to claim C1 excludes.) -/
def simpleArr : PyVal → Bool
  | .num _ => false
  | .arrRaw _ _ => false
  | .arr [] (.cons (.num _) .nil) => true
  | .arr [] _ => false
  | .arr (_ :: _) d => simpleList d

/-- All members of a data list are well-formed in the sense of `simpleArr`. -/
def simpleList : PyList → Bool
  | .nil => true
  | .cons x xs => simpleArr x && simpleList xs
end

mutual
/-- Modelled from the spec: mapping `x ↦ g x` over an array's leaves,
preserving shape and nesting structure — the right-hand side of the
pervasion broadcast law. -/
def specMapLeaves (g : Num → Num) : PyVal → PyVal
  | .num n => .num (g n)
  | .arr s d => .arr s (specMapList g d)
  | .arrRaw s x => .arrRaw s (specMapLeaves g x)

/-- `specMapLeaves` applied to every member of a data list. -/
def specMapList (g : Num → Num) : PyList → PyList
  | .nil => .nil
  | .cons x xs => .cons (specMapLeaves g x) (specMapList g xs)
end

/-- Integer-level digit extraction mirroring `_encode`'s loop over the
reversed radices: least-significant digit first. -/
def encRevZ : List ℤ → ℤ → List ℤ
  | [], _ => []
  | m :: ms, n => Int.fmod n m :: encRevZ ms (Int.fdiv n m)

/-- Integer-level mixed-radix accumulation in `_decode`'s processing order
(reversed radix and digit lists). -/
def decRevZ : List ℤ → List ℤ → ℤ
  | m :: ms, o :: os => o + m * decRevZ ms os
  | _, _ => 0

/-! ### Tokenizer (rgspl.py, class Tokenizer) -/

/-- The single-character WYSIWYG glyphs of the language (other than the
statement separators, which the tokenizer treats specially). -/
inductive Glyph where
  | plusG | minusG | timesG | divideG | ceilingG | floorG | rtackG | ltackG
  | iotaG | lessG | lesseqG | eqG | geqG | gtG | neqG | withoutG | lshoeG
  | rhoG | commuteG | diaeresisG | jotG | overG | assignG | lparenG | rparenG
deriving DecidableEq, Repr

/-- Source characters, classified the way the tokenizer dispatches on them:
digits, the high minus `¯`, the decimal dot, the letter `J` (both a complex
separator and an identifier character), other identifier characters,
whitespace, the newline and `⋄` separators, the comment lamp `⍝`, WYSIWYG
glyphs, and anything unrecognized. -/
inductive Ch where
  | digit : Fin 10 → Ch
  | hm : Ch
  | dot : Ch
  | jay : Ch
  | idch : Ch
  | space : Ch
  | newline : Ch
  | diamond : Ch
  | lamp : Ch
  | glyph : Glyph → Ch
  | other : Ch
deriving DecidableEq, Repr

/-- `str.isdigit` for one character. -/
def Ch.isDigit : Ch → Bool
  | .digit _ => true
  | _ => false

/-- Membership in `Token.ID_CHARS` (letters, underscore, digits). -/
def Ch.isIdChar : Ch → Bool
  | .idch => true
  | .jay => true
  | .digit _ => true
  | _ => false

/-- Membership in the number-start set `"¯.0123456789"`. -/
def Ch.isNumStart : Ch → Bool
  | .hm => true
  | .dot => true
  | .digit _ => true
  | _ => false

/-- Membership in `Token.WYSIWYG_MAPPING` (glyphs, `⋄` and newline). -/
def Ch.isWysiwyg : Ch → Bool
  | .diamond => true
  | .newline => true
  | .glyph _ => true
  | _ => false

/-- Membership in the whitespace set `" \t"`. -/
def Ch.isSpace : Ch → Bool
  | .space => true
  | _ => false

/-- The tokens produced by the tokenizer. -/
inductive Tok where
  | intTok : ℤ → Tok
  | floatTok : ℚ → Tok
  | cpxTok : ℚ → ℚ → Tok
  | idTok : List Ch → Tok
  | glyphTok : Glyph → Tok
  | diamondTok : Tok
  | eofTok : Tok
deriving DecidableEq, Repr

/-- The maximal run of digits at the head of the input (the loop of
`Tokenizer.get_integer`), together with the rest of the input. -/
def takeDigits : List Ch → (List (Fin 10) × List Ch)
  | .digit d :: t =>
      let p := takeDigits t
      (d :: p.1, p.2)
  | cs => ([], cs)

/-- The integer denoted by a digit string; the empty string stands for the
`"0"` that `get_integer` substitutes for an empty match. -/
def digitsVal (ds : List (Fin 10)) : ℕ := ds.foldl (fun acc d => 10 * acc + d.val) 0

/-- The leading `¯` check of `get_real_number`: consume a high minus if
present. -/
def stripNeg : List Ch → Bool × List Ch
  | .hm :: t => (true, t)
  | cs => (false, cs)

/-- The decimal-part check of `get_real_number`: consume a dot and the digit
run after it if present (an absent part behaves like the digits `"0"`). -/
def stripDec : List Ch → List (Fin 10) × List Ch
  | .dot :: t => takeDigits t
  | cs => ([], cs)

/-- `Tokenizer.get_real_number`: an optional `¯` (string-level negation), an
integer part, and an optional `.`-prefixed decimal part; the result is an
int exactly when the decimal digit string has value 0, and otherwise the
float denoted by `f"{int_}.{dec_}"` (modelled exactly). -/
def getRealNumber (cs : List Ch) : Num × List Ch :=
  let p0 := stripNeg cs
  let p1 := takeDigits p0.2
  let p2 := stripDec p1.2
  if digitsVal p2.1 ≠ 0 then
    let q : ℚ := (digitsVal p1.1 : ℚ) + (digitsVal p2.1 : ℚ) / ((10 : ℚ) ^ p2.1.length)
    (.float (if p0.1 then -q else q), p2.2)
  else
    (.int (if p0.1 then -(digitsVal p1.1 : ℤ) else (digitsVal p1.1 : ℤ)), p2.2)

/-- The `J` check of `get_number_token`: parse an imaginary part after a
`J`, or default it to the int 0. -/
def readImag : List Ch → Num × List Ch
  | .jay :: t => getRealNumber t
  | cs => ((Num.int 0 : Num), cs)

/-- `Tokenizer.get_number_token`: a real number, optionally followed by `J`
and a second real number; a truthy imaginary part yields a COMPLEX token,
otherwise the token type is the type of the real part. -/
def getNumberToken (cs : List Ch) : Except PErr (Tok × List Ch) :=
  let pr := getRealNumber cs
  let pi := readImag pr.2
  if numTruthy pi.1 then .ok (.cpxTok pr.1.toC.1 pi.1.toC.1, pi.2)
  else match pr.1 with
    | .int z => .ok (.intTok z, pi.2)
    | .float q => .ok (.floatTok q, pi.2)
    | .cpx _ _ => .error (.exception "TokenizerError: Cannot recognize type of number.")

/-- `Tokenizer.get_id_token`: the maximal run of identifier characters. -/
def getIdToken (cs : List Ch) : Tok × List Ch :=
  (.idTok (cs.takeWhile Ch.isIdChar), cs.dropWhile Ch.isIdChar)

/-- `Tokenizer.get_wysiwyg_token`: one separator or glyph character. -/
def getWysiwygToken : List Ch → Except PErr (Tok × List Ch)
  | .diamond :: t => .ok (.diamondTok, t)
  | .newline :: t => .ok (.diamondTok, t)
  | .glyph g :: t => .ok (.glyphTok g, t)
  | _ => .error (.exception "TokenizerError: Could not parse WYSIWYG token.")

/-- `Tokenizer.skip_comment`: from a lamp `⍝`, discard up to (excluding) the
next newline or the end of input. -/
def skipComment : List Ch → List Ch
  | .lamp :: t => t.dropWhile (fun c => c ≠ .newline)
  | cs => cs

/-- `Tokenizer.get_next_token`: skip whitespace and comments, then dispatch
on the current character. -/
def getNextToken (cs : List Ch) : Except PErr (Tok × List Ch) :=
  let cs1 := skipComment (cs.dropWhile Ch.isSpace)
  match cs1 with
  | [] => .ok (.eofTok, [])
  | c :: _ =>
    if c.isNumStart then getNumberToken cs1
    else if c.isIdChar then .ok (getIdToken cs1)
    else if c.isWysiwyg then getWysiwygToken cs1
    else .error (.exception "TokenizerError: Could not parse the next token...")

/-- The loop of `Tokenizer.tokenize`, accumulating tokens until EOF; each
produced non-EOF token consumes at least one character, so fuel
`length + 1` suffices. -/
def tokenizeLoop : ℕ → List Ch → List Tok → Except PErr (List Tok)
  | 0, _, _ => .error .outOfFuel
  | fuel+1, cs, acc => do
      let p ← getNextToken cs
      if p.1 = .eofTok then .ok (acc ++ [p.1])
      else tokenizeLoop fuel p.2 (acc ++ [p.1])

/-- `Tokenizer(code).tokenize()`.  `Tokenizer.__init__` evaluates
`self.code[self.pos]` with `pos = 0`, so constructing the tokenizer on an
empty source raises `IndexError` before any token is produced; otherwise the
token list is produced and its trailing EOF marker is moved to the front. -/
def tokenize (code : List Ch) : Except PErr (List Tok) :=
  match code with
  | [] => .error (.indexError "string index out of range")
  | _ => do
      let toks ← tokenizeLoop (code.length + 1) code []
      match toks.getLast? with
      | some last => .ok (last :: toks.dropLast)
      | none => .error (.indexError "list index out of range")

/-! ### Numeric-literal syntax (for stating the tokenizer claims) -/

/-- The rendering of an optional decimal part: nothing, or a dot followed by
its digits. -/
def decRender : Option (List (Fin 10)) → List Ch
  | none => []
  | some ds => Ch.dot :: ds.map Ch.digit

/-- The rendering of a real-number literal: an optional `¯`, the integer
digits, and an optional decimal part. -/
def renderReal (neg : Bool) (ids : List (Fin 10)) (dec : Option (List (Fin 10))) :
    List Ch :=
  (if neg then [Ch.hm] else []) ++ ids.map Ch.digit ++ decRender dec

/-- The number `get_real_number` produces for a rendered literal: an int
exactly when the decimal digit string has value 0, otherwise the exact
decimal value as a float, with the `¯` negating either. -/
def realLitVal (neg : Bool) (ids : List (Fin 10)) (dec : Option (List (Fin 10))) :
    Num :=
  if digitsVal (dec.getD []) ≠ 0 then
    .float (if neg then
        -((digitsVal ids : ℚ) + (digitsVal (dec.getD []) : ℚ) / ((10 : ℚ) ^ (dec.getD []).length))
      else
        ((digitsVal ids : ℚ) + (digitsVal (dec.getD []) : ℚ) / ((10 : ℚ) ^ (dec.getD []).length)))
  else .int (if neg then -(digitsVal ids : ℤ) else (digitsVal ids : ℤ))

/-- Negation of a Python number, preserving its type. -/
def numNeg : Num → Num
  | .int z => .int (-z)
  | .float q => .float (-q)
  | .cpx a b => .cpx (-a) (-b)

/-- The number token carrying a given numeric value: the token type is the
number's type. -/
def tokOfNum : Num → Tok
  | .int z => .intTok z
  | .float q => .floatTok q
  | .cpx a b => .cpxTok a b

/-- The characters following a numeric literal do not extend it: the
continuation does not start with a digit, a dot, or a `¯`. -/
def numContSafe : List Ch → Bool
  | .digit _ :: _ => false
  | .dot :: _ => false
  | .hm :: _ => false
  | _ => true

/-! ## Theorems -/

@[simp]
theorem ok_bind {α β : Type} (a : α) (f : α → Except PErr β) :
    (Except.ok a >>= f) = f a := rfl

@[simp]
theorem error_bind {α β : Type} (e : PErr) (f : α → Except PErr β) :
    ((Except.error e : Except PErr α) >>= f) = .error e := rfl

@[simp]
theorem pure_eq_ok {α : Type} (a : α) : (pure a : Except PErr α) = .ok a := rfl

/-- No array Python-equals its own enclosure: `APLArray([], [v]) == v` is
false for every value `v` (by an infinite-descent argument on sizes). -/
theorem pyEqB_enclose_ne (v : PyVal) : pyEqB (.arr [] (.cons v .nil)) v = false := by
  suffices h : ∀ n v, psize v ≤ n → pyEqB (.arr [] (.cons v .nil)) v = false from
    h (psize v) v le_rfl
  intro n
  induction n with
  | zero =>
    intro v hv
    cases v <;> simp [psize] at hv
  | succ n ih =>
    intro v hv
    match v with
    | .num _ => rfl
    | .arrRaw s x => rfl
    | .arr s d =>
      match s, d with
      | (_ :: _), _ => simp [pyEqB]
      | [], .nil => simp [pyEqB, pyListEqB]
      | [], .cons w .nil =>
        have hw : psize w ≤ n := by
          simp [psize, psizeL] at hv
          omega
        have := ih w hw
        simp [pyEqB, pyListEqB] at this ⊢
        exact this
      | [], .cons w (.cons u tl) => simp [pyEqB, pyListEqB]

theorem mapM_ok {α β : Type} (l : List α) (g : α → Except PErr β) (h : α → β)
    (H : ∀ x ∈ l, g x = .ok (h x)) : l.mapM g = .ok (l.map h) := by
  induction l with
  | nil => rfl
  | cons x xs ih =>
    rw [List.mapM_cons]
    simp only [H x (by simp), ok_bind, ih (fun y hy => H y (by simp [hy])), pure_eq_ok]
    rfl

theorem psize_lt_of_mem : ∀ (d : PyList) (x : PyVal), x ∈ d.toList → psize x < psizeL d
  | .nil, x, hx => by simp [PyList.toList] at hx
  | .cons y ys, x, hx => by
    simp only [PyList.toList, List.mem_cons] at hx
    rcases hx with h | h
    · subst h
      simp [psizeL]
      omega
    · have := psize_lt_of_mem ys x h
      simp [psizeL]
      omega

theorem simpleArr_of_mem : ∀ (d : PyList) (x : PyVal), simpleList d = true →
    x ∈ d.toList → simpleArr x = true
  | .nil, x, _, hx => by simp [PyList.toList] at hx
  | .cons y ys, x, hd, hx => by
    simp only [PyList.toList, List.mem_cons] at hx
    simp only [simpleList, Bool.and_eq_true] at hd
    rcases hx with h | h
    · subst h
      exact hd.1
    · exact simpleArr_of_mem ys x hd.2 h

theorem specMapList_eq : ∀ (g : Num → Num) (d : PyList),
    PyList.ofList (d.toList.map (specMapLeaves g)) = specMapList g d
  | g, .nil => rfl
  | g, .cons y ys => by
    simp [PyList.toList, PyList.ofList, specMapList, specMapList_eq g ys]

/-- The heart of C1: with enough fuel, pervading `f` with a simple scalar
left argument over a well-formed array without enclosed scalars maps
`x ↦ f(s, x)` over the leaves, preserving all shapes. -/
theorem pervadeF_broadcast (f : Option Num → Num → Except PErr Num)
    (g : Num → Num) (sval : Num)
    (hf : ∀ x, f (some sval) x = .ok (g x)) :
    ∀ fuel A, simpleArr A = true → psize A < fuel →
      pervadeF f fuel (some (.arr [] (.cons (.num sval) .nil))) A
        = .ok (specMapLeaves g A) := by
  intro fuel
  induction fuel with
  | zero =>
    intro A _ h
    exact absurd h (Nat.not_lt_zero _)
  | succ n ih =>
    intro A hA hsz
    cases A with
    | num m => simp [simpleArr] at hA
    | arrRaw s x => simp [simpleArr] at hA
    | arr s d =>
      cases s with
      | nil =>
        cases d with
        | nil => simp [simpleArr] at hA
        | cons e tl =>
          cases e with
          | num x =>
            cases tl with
            | nil =>
              rw [pervadeF]
              simp [getShape, isSimpleScalarB, data0, hf, specMapLeaves, specMapList]
            | cons u utl => simp [simpleArr] at hA
          | arr es ed => simp [simpleArr] at hA
          | arrRaw es ex => simp [simpleArr] at hA
      | cons s0 ss =>
        have hmem : ∀ w ∈ d.toList,
            pervadeF f n (some (.arr [] (.cons (.num sval) .nil))) w
              = .ok (specMapLeaves g w) := by
          intro w hw
          have h1 : simpleArr w = true := by
            have hl : simpleList d = true := by simpa [simpleArr] using hA
            exact simpleArr_of_mem d w hl hw
          have h2 : psize w < n := by
            have := psize_lt_of_mem d w hw
            simp only [psize] at hsz
            omega
          exact ih w h1 h2
        rw [pervadeF]
        simp only [getShape, ok_bind]
        rw [if_neg (by simp), if_neg (by simp), if_pos (by simp)]
        simp only [isSimpleScalarB, ok_bind, if_pos rfl, dataList, pure_eq_ok]
        rw [mapM_ok _ _ (specMapLeaves g) hmem]
        simp [specMapLeaves, specMapList_eq]

/-- C1 (amended): for every scalar function `f`, simple scalar `s`, and
array `A` with non-empty shape all of whose nested scalars are simple (no
enclosed-array elements at any depth), the dyadic application `f(s, A)`
returns the array obtained by mapping `x ↦ f(s, x)` over the leaves of `A`,
preserving structure; in particular the result shape equals `A`'s shape. -/
theorem pervade_broadcast_law (f : Option Num → Num → Except PErr Num)
    (g : Num → Num) (sval : Num) (s0 : ℤ) (ss : List ℤ) (d : PyList)
    (hf : ∀ x, f (some sval) x = .ok (g x))
    (hgood : simpleArr (.arr (s0 :: ss) d) = true) :
    pervade f (some (Sv (.num sval))) (.arr (s0 :: ss) d)
      = .ok (specMapLeaves g (.arr (s0 :: ss) d)) ∧
    getShape (specMapLeaves g (.arr (s0 :: ss) d)) = .ok (s0 :: ss) := by
  constructor
  · exact pervadeF_broadcast f g sval hf (pervadeFuel (some (Sv (.num sval)))
      (.arr (s0 :: ss) d)) _ hgood (by simp [pervadeFuel]; omega)
  · rfl

/-- Witness for `pervade_broadcast_law`: `1 + 2 3` gives `3 4`. -/
theorem pervade_broadcast_law_witness :
    (∀ x, plusLeaf (some (.int 1)) x = .ok (numAdd (.int 1) x)) ∧
    simpleArr (.arr [2] (.cons (Sint 2) (.cons (Sint 3) .nil))) = true ∧
    (pervade plusLeaf (some (Sv (.num (.int 1))))
        (.arr [2] (.cons (Sint 2) (.cons (Sint 3) .nil)))
      = .ok (specMapLeaves (numAdd (.int 1)) (.arr [2] (.cons (Sint 2) (.cons (Sint 3) .nil)))) ∧
    getShape (specMapLeaves (numAdd (.int 1)) (.arr [2] (.cons (Sint 2) (.cons (Sint 3) .nil))))
      = .ok [2]) :=
  ⟨fun _ => rfl, rfl,
    pervade_broadcast_law plusLeaf (numAdd (.int 1)) (.int 1) 2 [] _
      (fun _ => rfl) rfl⟩

/-- C1 fails as literally stated once `A` contains an enclosed scalar: for
`s = 1` and `A` the one-element vector holding `⊂(5)` (an enclosed
one-element vector), `pervade`'s catch-all branch stores the recursive
result array directly in the `data` attribute, so the element of the result
is a malformed scalar that is not Python-equal to the structure-preserving
leaf map of the corresponding element of `A`. -/
theorem pervade_broadcast_cex :
    pervade plusLeaf (some (Sv (.num (.int 1))))
      (.arr [1] (.cons (.arr [] (.cons (.arr [1] (.cons (Sint 5) .nil)) .nil)) .nil))
      = .ok (.arr [1] (.cons (.arrRaw [] (.arr [1] (.cons (Sint 6) .nil))) .nil)) ∧
    specMapLeaves (numAdd (.int 1))
      (.arr [1] (.cons (.arr [] (.cons (.arr [1] (.cons (Sint 5) .nil)) .nil)) .nil))
      = .arr [1] (.cons (.arr [] (.cons (.arr [1] (.cons (Sint 6) .nil)) .nil)) .nil) ∧
    pyEqB (.arr [1] (.cons (.arrRaw [] (.arr [1] (.cons (Sint 6) .nil))) .nil))
      (.arr [1] (.cons (.arr [] (.cons (.arr [1] (.cons (Sint 6) .nil)) .nil)) .nil))
      = false :=
  ⟨rfl, rfl, rfl⟩

/-- C6: the commute operator `⍨` swaps the arguments of its operand: for
every function `f` and arrays `a`, `w`, dyadically `a (f⍨) w = w f a`, and
monadically `(f⍨) w = w f w`. -/
theorem commute_identity (f : Option PyVal → PyVal → Except PErr PyVal)
    (a w : PyVal) :
    commute f (some a) w = f (some w) a ∧ commute f none w = f (some w) w :=
  ⟨rfl, rfl⟩

/-- C9: tokenizing the empty source fails: `Tokenizer.__init__` indexes
position 0 of the empty string and raises `IndexError`, so `tokenize` never
returns the one-element list holding only the end-of-input marker. -/
theorem tokenize_empty_fails :
    tokenize [] = .error (.indexError "string index out of range") ∧
    tokenize [] ≠ .ok [.eofTok] := by
  refine ⟨rfl, ?_⟩
  intro h
  exact Except.noConfusion h

/-- C2 fails on the code: evaluating a literal scalar (`visit_S`) returns
`APLArray([], 5)` whose `data` attribute is the bare number 5, and the
diaeresis operator on a scalar argument returns an array whose `data`
attribute is the result array itself; in both cases `data` is not a
sequence, so `len(data) == product(shape)` (which demands one element)
fails — `len(data)` raises `TypeError`. -/
theorem visit_S_and_diaeresis_break_invariant :
    visit_S (.int 5) = .arrRaw [] (.num (.int 5)) ∧
    lenData (visit_S (.int 5)) = .error (.typeError "object has no len") ∧
    diaeresis plus none (Sint 1) = .ok (.arrRaw [] (Sint 1)) ∧
    (do
      let r ← diaeresis plus none (Sint 1)
      lenData r) = .error (.typeError "object has no len") :=
  ⟨rfl, rfl, rfl, rfl⟩

/-- C7 fails on the code: in the monadic branch of `⌈` and `⌊` the test
`isinstance(alpha, complex)` inspects `alpha`, which is `None` there, so
the `NotImplementedError` branch is unreachable (the monadic leaf always
reduces to `math.ceil` / `math.floor`), and applying monadic `⌈` or `⌊` to
the complex scalar `1J1` raises `TypeError` from `math.ceil` /
`math.floor` instead of `NotImplementedError`. -/
theorem ceiling_floor_complex_monadic_typeerror :
    (∀ om : Num, ceilingLeaf none om = mathCeil om) ∧
    (∀ om : Num, floorLeaf none om = mathFloor om) ∧
    ceiling none (Sv (.num (.cpx 1 1)))
      = .error (.typeError "can't convert complex to float") ∧
    floor none (Sv (.num (.cpx 1 1)))
      = .error (.typeError "can't convert complex to float") :=
  ⟨fun _ => rfl, fun _ => rfl, rfl, rfl⟩

/-- C4 fails as stated for a scalar source array: `5⍴́`-style reshape of the
simple scalar `5` with target shape `[2]` cyclically repeats the *scalar
array itself* (`data_from = [omega]`), so `reshape([2], 5).data[0]` is the
enclosing scalar array `S(5)`, which is not Python-equal to
`A.data[0 mod 1] = 5`, the bare number. -/
theorem reshape_scalar_source_cex :
    rho (some (Sv (.num (.int 2)))) (Sint 5)
      = .ok (.arr [2] (.cons (Sint 5) (.cons (Sint 5) .nil))) ∧
    pyEqB (Sint 5) (.num (.int 5)) = false :=
  ⟨rfl, rfl⟩

theorem length_flatten_replicate {α : Type} (l : List α) (m : ℕ) :
    ((List.replicate m l).flatten).length = m * l.length := by
  induction m with
  | zero => simp
  | succ m ih =>
    simp only [List.replicate_succ, List.flatten_cons, List.length_append, ih]
    ring

theorem getD_flatten_replicate {α : Type} [Inhabited α] (l : List α) :
    ∀ (m i : ℕ), i < m * l.length →
      ((List.replicate m l).flatten).getD i default = l.getD (i % l.length) default := by
  intro m
  induction m with
  | zero =>
    intro i h
    omega
  | succ m ih =>
    intro i h
    rw [Nat.succ_mul] at h
    rw [List.replicate_succ, List.flatten_cons]
    by_cases hi : i < l.length
    · rw [List.getD_append _ _ _ _ hi, Nat.mod_eq_of_lt hi]
    · have hle : l.length ≤ i := le_of_not_lt hi
      have h2 : i - l.length < m * l.length := by omega
      rw [List.getD_append_right _ _ _ _ hle, ih _ h2]
      congr 1
      conv_rhs => rw [← Nat.sub_add_cancel hle]
      rw [Nat.add_mod_right]

theorem ceilDiv_mul_ge (p L : ℤ) (hL : 0 < L) : p ≤ ceilDiv p L * L := by
  unfold ceilDiv
  rw [Int.fdiv_eq_ediv _ (le_of_lt hL)]
  have h1 := Int.ediv_mul_le (-p) (ne_of_gt hL)
  have h2 : -(-p / L) * L = -(-p / L * L) := by ring
  omega

theorem prodZ_nonneg (l : List ℤ) (h : ∀ t ∈ l, 0 ≤ t) : 0 ≤ prodZ l := by
  suffices H : ∀ (init : ℤ), 0 ≤ init → 0 ≤ l.foldl (· * ·) init from H 1 (by omega)
  induction l with
  | nil =>
    intro init h0
    simpa using h0
  | cons t tl ih =>
    intro init h0
    rw [List.foldl_cons]
    exact ih (fun x hx => h x (by simp [hx])) _ (mul_nonneg h0 (h t (by simp)))

/-- The cyclic-fill kernel of dyadic `⍴`: the `data_from * ceil(...)` then
truncate computation has exactly `p` elements, the one at flat index `i`
being `data_from[i mod len(data_from)]`. -/
theorem cyclicFill_spec (l : List PyVal) (p : ℤ) (hl : l ≠ []) (hp : 0 ≤ p) :
    (pyTake (pyListMul l (ceilDiv p l.length)) p).length = p.toNat ∧
    ∀ i < p.toNat,
      (pyTake (pyListMul l (ceilDiv p l.length)) p).getD i default
        = l.getD (i % l.length) default := by
  have hlen : 0 < l.length := List.length_pos.mpr hl
  have hlenZ : (0 : ℤ) < l.length := by exact_mod_cast hlen
  have hK : p ≤ ceilDiv p l.length * l.length := ceilDiv_mul_ge p _ hlenZ
  have hM : 0 ≤ ceilDiv p l.length := by
    by_contra hneg
    push_neg at hneg
    nlinarith
  have hMc : ((ceilDiv p l.length).toNat : ℤ) = ceilDiv p l.length :=
    Int.toNat_of_nonneg hM
  have hpc : (p.toNat : ℤ) = p := Int.toNat_of_nonneg hp
  have hcast : (((ceilDiv p l.length).toNat * l.length : ℕ) : ℤ)
      = ceilDiv p l.length * l.length := by
    push_cast [hMc]
    ring
  have htot : p.toNat ≤ (ceilDiv p l.length).toNat * l.length := by omega
  have hTake : pyTake (pyListMul l (ceilDiv p l.length)) p
      = (pyListMul l (ceilDiv p l.length)).take p.toNat := by
    simp [pyTake, hp]
  have hLen : (pyListMul l (ceilDiv p l.length)).length
      = (ceilDiv p l.length).toNat * l.length := by
    simp [pyListMul, length_flatten_replicate]
  constructor
  · rw [hTake, List.length_take, hLen]
    omega
  · intro i hi
    rw [hTake]
    rw [List.getD_eq_getElem?_getD, List.getElem?_take_of_lt hi,
      ← List.getD_eq_getElem?_getD]
    exact getD_flatten_replicate l _ i (by omega)
theorem mapM_data0_intVecElems (ts : List ℤ) :
    (ts.map Sint).mapM data0 = .ok (ts.map (fun z => PyVal.num (.int z))) := by
  have h := mapM_ok (ts.map Sint) data0
    (fun x => match x with
      | .arr _ (.cons e _) => e
      | _ => default)
    (by
      intro x hx
      obtain ⟨z, _, rfl⟩ := List.mem_map.mp hx
      rfl)
  rw [h, List.map_map]
  rfl

/-- Evaluation of dyadic `⍴` with a well-formed integer-vector left argument
and a shaped right argument, down to the cyclic-fill kernel. -/
theorem rho_intVec_eval (ts ashape : List ℤ) (ad : PyList)
    (hsh : ashape ≠ []) (hne : ad.toList ≠ []) :
    rho (some (intVec ts)) (.arr ashape ad)
      = .ok (.arr ts (.ofList
          (pyTake (pyListMul ad.toList (ceilDiv (prodZ ts) ad.toList.length))
            (prodZ ts)))) := by
  simp only [rho, intVec, getShape, ok_bind]
  rw [if_neg (by simp)]
  simp only [isScalarB, ok_bind]
  rw [if_neg (by simp)]
  simp only [dataList, ok_bind, PyList.toList_ofList]
  rw [mapM_data0_intVecElems ts]
  simp only [ok_bind]
  rw [mapM_ok (ts.map (fun z => PyVal.num (.int z))) _
    (fun x => match x with
      | .num (.int z) => z
      | _ => 0)
    (by
      intro x hx
      obtain ⟨z, _, rfl⟩ := List.mem_map.mp hx
      rfl)]
  simp only [ok_bind, List.map_map]
  rw [if_pos (by simpa using List.length_pos.mpr hsh)]
  rw [if_neg (by simpa using hne)]
  have hts : ts.map ((fun x => match x with
      | PyVal.num (.int z) => z
      | _ => 0) ∘ fun z => PyVal.num (.int z)) = ts := by
    induction ts with
    | nil => rfl
    | cons t tl ih =>
      rw [List.map_cons, ih]
      rfl
  rw [hts]
/-- Evaluation of dyadic `⍴` with a simple integer-scalar left argument. -/
theorem rho_intScalar_eval (k : ℤ) (ashape : List ℤ) (ad : PyList)
    (hsh : ashape ≠ []) (hne : ad.toList ≠ []) :
    rho (some (Sv (.num (.int k)))) (.arr ashape ad)
      = .ok (.arr [k] (.ofList
          (pyTake (pyListMul ad.toList (ceilDiv (prodZ [k]) ad.toList.length))
            (prodZ [k])))) := by
  simp only [rho, Sv, getShape, ok_bind]
  rw [if_neg (by simp)]
  simp only [isScalarB, ok_bind]
  rw [if_pos (by simp)]
  simp only [data0, ok_bind, pure_eq_ok, List.mapM_cons, List.mapM_nil]
  rw [if_pos (by simpa using List.length_pos.mpr hsh)]
  simp only [dataList, ok_bind]
  rw [if_neg (by simpa using hne)]

/-- C4 (amended): for every target shape `S` (given as an integer scalar or
an integer vector, with non-negative entries) and every source array `A`
with non-empty shape and `n = product(A.shape) > 0` elements, dyadic `⍴`
returns an array of shape `S` with exactly `product(S)` elements, the
element at flat index `i` being `A.data[i mod n]`; a 0 in the target shape
yields an empty result.  (For a scalar source `A` the cyclically repeated
element is the scalar array `A` itself rather than `A.data[0]`, which is
what `reshape_scalar_source_cex` exhibits; hence the restriction to
non-empty source shapes.) -/
theorem reshape_cyclic_fill (ts ashape : List ℤ) (ad : PyList) (T : PyVal)
    (hT : T = intVec ts ∨ ∃ k, ts = [k] ∧ T = Sv (.num (.int k)))
    (hsh : ashape ≠ []) (hlen : (ad.toList.length : ℤ) = prodZ ashape)
    (hpos : 0 < prodZ ashape) (hts : ∀ t ∈ ts, 0 ≤ t) :
    ∃ dd : List PyVal,
      rho (some T) (.arr ashape ad) = .ok (.arr ts (.ofList dd)) ∧
      dd.length = (prodZ ts).toNat ∧
      ∀ i < dd.length,
        dd.getD i default = ad.toList.getD (i % ad.toList.length) default := by
  have hne : ad.toList ≠ [] := by
    intro h
    rw [h] at hlen
    simp at hlen
    omega
  have hp : 0 ≤ prodZ ts := prodZ_nonneg ts hts
  have hfill := cyclicFill_spec ad.toList (prodZ ts) hne hp
  refine ⟨pyTake (pyListMul ad.toList (ceilDiv (prodZ ts) ad.toList.length))
    (prodZ ts), ?_, hfill.1, ?_⟩
  · rcases hT with rfl | ⟨k, rfl, rfl⟩
    · exact rho_intVec_eval ts ashape ad hsh hne
    · exact rho_intScalar_eval k ashape ad hsh hne
  · intro i hi
    rw [hfill.1] at hi
    exact hfill.2 i hi

/-- Witness for `reshape_cyclic_fill`: `5 ⍴ 1 2 3` gives `1 2 3 1 2`. -/
theorem reshape_cyclic_fill_witness :
    ((intVec [5] : PyVal) = intVec [5] ∨ ∃ k, ([5] : List ℤ) = [k] ∧ intVec [5] = Sv (.num (.int k))) ∧
    ([3] : List ℤ) ≠ [] ∧
    (((PyList.ofList ([1, 2, 3].map Sint)).toList.length : ℤ) = prodZ [3]) ∧
    (0 : ℤ) < prodZ [3] ∧ (∀ t ∈ ([5] : List ℤ), 0 ≤ t) ∧
    ∃ dd : List PyVal,
      rho (some (intVec [5])) (.arr [3] (.ofList ([1, 2, 3].map Sint)))
        = .ok (.arr [5] (.ofList dd)) ∧
      dd.length = (prodZ [5]).toNat ∧
      ∀ i < dd.length,
        dd.getD i default
          = (PyList.ofList ([1, 2, 3].map Sint)).toList.getD
              (i % (PyList.ofList ([1, 2, 3].map Sint)).toList.length) default :=
  ⟨Or.inl rfl, by decide, by rfl, by decide, by decide,
    reshape_cyclic_fill [5] [3] (PyList.ofList ([1, 2, 3].map Sint)) (intVec [5])
      (Or.inl rfl) (by decide) (by rfl) (by decide) (by decide)⟩

/-- C10: monadic `⊂` wraps every non-simple-scalar `v` as a rank-0 array
holding `v`, enclosing twice gives a strictly deeper nesting than enclosing
once (`⊂⊂v ≠ ⊂v` under Python equality), and a simple scalar is returned
unchanged. -/
theorem enclose_non_idempotent (v s : PyVal)
    (hv : isSimpleScalarB v = .ok false) (hs : isSimpleScalarB s = .ok true) :
    lshoe none v = .ok (.arr [] (.cons v .nil)) ∧
    (do
      let x ← lshoe none v
      lshoe none x) = .ok (.arr [] (.cons (.arr [] (.cons v .nil)) .nil)) ∧
    pyEqB (.arr [] (.cons (.arr [] (.cons v .nil)) .nil)) (.arr [] (.cons v .nil))
      = false ∧
    lshoe none s = .ok s := by
  have h1 : lshoe none v = .ok (.arr [] (.cons v .nil)) := by
    simp [lshoe, hv]
  have hvn : ∀ n, v ≠ .num n := by
    intro n h
    subst h
    simp [isSimpleScalarB] at hv
  have h2 : isSimpleScalarB (.arr [] (.cons v .nil)) = .ok false := by
    cases v with
    | num n => exact absurd rfl (hvn n)
    | arr s d => rfl
    | arrRaw s x => rfl
  refine ⟨h1, ?_, ?_, ?_⟩
  · simp [lshoe, hv, h2]
  · have := pyEqB_enclose_ne v
    simp [pyEqB, pyListEqB] at this ⊢
    exact this
  · simp [lshoe, hs]

/-- C3: for every scalar function `f` and all arrays `A`, `B` with non-empty
and different shapes, the pervasive primitive built from `f` raises the
shape-mismatch error — in the Python source the exception
`IndexError("Mismatched left and right shapes.")`, which is the error the
specification's taxonomy names `ShapeError`. -/
theorem pervade_shape_mismatch (f : Option Num → Num → Except PErr Num)
    (A B : PyVal) (sa sb : List ℤ)
    (hA : getShape A = .ok sa) (hB : getShape B = .ok sb)
    (ha : sa ≠ []) (hb : sb ≠ []) (hne : sa ≠ sb) :
    pervade f (some A) B
      = .error (.indexError "Mismatched left and right shapes.") := by
  show pervadeF f (psize A + psize B + 1) (some A) B = _
  rw [pervadeF]
  simp [hA, hB, ha, hb, hne]

/-- Witness for `pervade_shape_mismatch`: `1 2 + 1 2 3` (with the `+` leaf
function) raises the shape-mismatch error. -/
theorem pervade_shape_mismatch_witness :
    getShape (PyVal.arr [2] (.cons (Sint 1) (.cons (Sint 2) .nil))) = .ok [2] ∧
    getShape (PyVal.arr [3] (.cons (Sint 1) (.cons (Sint 2) (.cons (Sint 3) .nil))))
      = .ok [3] ∧
    ([2] : List ℤ) ≠ [] ∧ ([3] : List ℤ) ≠ [] ∧ ([2] : List ℤ) ≠ [3] ∧
    pervade plusLeaf
      (some (PyVal.arr [2] (.cons (Sint 1) (.cons (Sint 2) .nil))))
      (PyVal.arr [3] (.cons (Sint 1) (.cons (Sint 2) (.cons (Sint 3) .nil))))
      = .error (.indexError "Mismatched left and right shapes.") :=
  ⟨rfl, rfl, by decide, by decide, by decide,
    pervade_shape_mismatch plusLeaf _ _ [2] [3] rfl rfl (by decide) (by decide)
      (by decide)⟩

/-- Witness for `enclose_non_idempotent` at the vector `1 2` and the simple
scalar `7`. -/
theorem enclose_non_idempotent_witness :
    isSimpleScalarB (PyVal.arr [2] (.cons (Sint 1) (.cons (Sint 2) .nil)))
      = .ok false ∧
    isSimpleScalarB (Sint 7) = .ok true ∧
    (lshoe none (PyVal.arr [2] (.cons (Sint 1) (.cons (Sint 2) .nil)))
      = .ok (.arr [] (.cons (.arr [2] (.cons (Sint 1) (.cons (Sint 2) .nil))) .nil)) ∧
    (do
      let x ← lshoe none (PyVal.arr [2] (.cons (Sint 1) (.cons (Sint 2) .nil)))
      lshoe none x)
      = .ok (.arr []
          (.cons (.arr [] (.cons (.arr [2] (.cons (Sint 1) (.cons (Sint 2) .nil))) .nil)) .nil)) ∧
    pyEqB
      (.arr [] (.cons (.arr [] (.cons (.arr [2] (.cons (Sint 1) (.cons (Sint 2) .nil))) .nil)) .nil))
      (.arr [] (.cons (.arr [2] (.cons (Sint 1) (.cons (Sint 2) .nil))) .nil)) = false ∧
    lshoe none (Sint 7) = .ok (Sint 7)) :=
  ⟨rfl, rfl, enclose_non_idempotent _ _ rfl rfl⟩

theorem prodZ_cons (m : ℤ) (l : List ℤ) : prodZ (m :: l) = m * prodZ l := by
  have H : ∀ (l : List ℤ) (a b : ℤ), l.foldl (· * ·) (a * b) = a * l.foldl (· * ·) b := by
    intro l
    induction l with
    | nil => intro a b; rfl
    | cons x xs ih =>
      intro a b
      rw [List.foldl_cons, List.foldl_cons, mul_assoc, ih]
  unfold prodZ
  rw [List.foldl_cons, one_mul]
  conv_lhs => rw [← mul_one m]
  exact H l m 1

theorem prodZ_pos (l : List ℤ) (h : ∀ t ∈ l, 0 < t) : 0 < prodZ l := by
  induction l with
  | nil => simp [prodZ]
  | cons t tl ih =>
    rw [prodZ_cons]
    exact mul_pos (h t (by simp)) (ih (fun x hx => h x (by simp [hx])))

theorem prodZ_reverse (l : List ℤ) : prodZ l.reverse = prodZ l := by
  induction l with
  | nil => rfl
  | cons t tl ih =>
    rw [prodZ_cons, List.reverse_cons, ← ih]
    have H : ∀ (xs : List ℤ) (x : ℤ), prodZ (xs ++ [x]) = prodZ xs * x := by
      intro xs
      induction xs with
      | nil =>
        intro x
        simp [prodZ]
      | cons y ys ihy =>
        intro x
        rw [List.cons_append, prodZ_cons, prodZ_cons, ihy, mul_assoc]
    rw [H, mul_comm]

theorem encRevZ_length (ms : List ℤ) : ∀ n, (encRevZ ms n).length = ms.length := by
  induction ms with
  | nil => intro n; rfl
  | cons m tl ih => intro n; simp [encRevZ, ih]

/- the round trip at the integer level -/
theorem decRev_encRev (ms : List ℤ) (hms : ∀ m ∈ ms, 0 < m) :
    ∀ n, 0 ≤ n → n < prodZ ms → decRevZ ms (encRevZ ms n) = n := by
  induction ms with
  | nil =>
    intro n h0 hp
    simp [prodZ] at hp
    simp [encRevZ, decRevZ]
    omega
  | cons m tl ih =>
    intro n h0 hp
    have hm : 0 < m := hms m (by simp)
    rw [prodZ_cons] at hp
    rw [encRevZ, decRevZ]
    have hfd : Int.fdiv n m = n / m := Int.fdiv_eq_ediv _ (le_of_lt hm)
    have hfm : Int.fmod n m = n % m := Int.fmod_eq_emod _ (le_of_lt hm)
    have h1 : 0 ≤ n / m := Int.ediv_nonneg h0 (le_of_lt hm)
    have h2 : n / m < prodZ tl := by
      rw [Int.ediv_lt_iff_lt_mul hm]
      nlinarith
    rw [hfd, hfm, ih (fun x hx => hms x (by simp [hx])) _ h1 h2]
    have h3 := Int.emod_add_ediv n m
    omega

theorem numProd_ints (R : List ℤ) : numProd (R.map .int) = .int (prodZ R) := by
  have H : ∀ (R : List ℤ) (a : ℤ),
      (R.map Num.int).foldl numMul (.int a) = .int (R.foldl (· * ·) a) := by
    intro R
    induction R with
    | nil => intro a; rfl
    | cons r rs ih =>
      intro a
      rw [List.map_cons, List.foldl_cons, List.foldl_cons]
      exact ih (a * r)
  exact H R 1

theorem encodeFold (ms : List ℤ) (hms : ∀ m ∈ ms, m ≠ 0) :
    ∀ (a : ℤ) (acc : List Num), ∃ q : Num,
      (ms.map Num.int).foldlM encodeStep ((.int a : Num), acc)
        = .ok (q, acc ++ (encRevZ ms a).map .int) := by
  induction ms with
  | nil =>
    intro a acc
    exact ⟨.int a, by simp [encRevZ, List.foldlM]⟩
  | cons m tl ih =>
    intro a acc
    have hm : m ≠ 0 := hms m (by simp)
    obtain ⟨q, hq⟩ := ih (fun x hx => hms x (by simp [hx])) (Int.fdiv a m)
      (acc ++ [Num.int (Int.fmod a m)])
    refine ⟨q, ?_⟩
    rw [List.map_cons, List.foldlM_cons]
    have hstep : encodeStep ((.int a : Num), acc) (.int m)
        = .ok ((.int (Int.fdiv a m)), acc ++ [.int (Int.fmod a m)]) := by
      simp [encodeStep, numEqB, hm, pyDivmod]
    rw [hstep]
    simp only [ok_bind]
    rw [hq]
    simp [encRevZ, List.append_assoc]

theorem encodeScalar_int (R : List ℤ) (hR : ∀ r ∈ R, 0 < r) (n : ℤ)
    (hn0 : 0 ≤ n) (hnp : n < prodZ R) :
    encodeScalar (R.map .int) (.int n) = .ok ((encRevZ R.reverse n).reverse.map .int) := by
  unfold encodeScalar
  have hall : (R.map Num.int).all (fun m => !(numEqB m (.int 0))) = true := by
    rw [List.all_eq_true]
    intro x hx
    obtain ⟨r, hr, rfl⟩ := List.mem_map.mp hx
    simp [numEqB]
    exact ne_of_gt (hR r hr)
  have hprod : (0 : ℤ) < prodZ R := prodZ_pos R hR
  have hmod : pyMod (.int n) (numProd (R.map .int)) = .ok (.int n) := by
    rw [numProd_ints]
    simp only [pyMod, pyDivmod]
    rw [if_neg (by omega)]
    simp only [ok_bind, pure_eq_ok]
    rw [Int.fmod_eq_emod _ (le_of_lt hprod), Int.emod_eq_of_lt hn0 hnp]
  simp only [hall, if_true, hmod, ok_bind]
  have hrev : (R.map Num.int).reverse = R.reverse.map Num.int := by
    rw [List.map_reverse]
  rw [hrev]
  obtain ⟨q, hq⟩ := encodeFold R.reverse
    (fun x hx => ne_of_gt (hR x (List.mem_reverse.mp hx))) n []
  rw [hq]
  simp [List.map_reverse]

theorem everyNth_one {α : Type} (l : List α) : everyNth l 1 = l := by
  unfold everyNth
  have h : (l.enum.filter (fun p => p.1 % 1 = 0)) = l.enum :=
    List.filter_eq_self.mpr (by intro a _; simpa using Nat.mod_one a.1)
  rw [h, List.enum_map_snd]

theorem PyList.ofList_toList : ∀ (d : PyList), PyList.ofList d.toList = d
  | .nil => rfl
  | .cons x xs => by simp [PyList.toList, PyList.ofList, PyList.ofList_toList xs]
theorem getShape_arr (s : List ℤ) (d : PyList) : getShape (.arr s d) = .ok s := rfl

theorem dataList_arr (s : List ℤ) (d : PyList) : dataList (.arr s d) = .ok d.toList := rfl

theorem data0_Sv (v : PyVal) : data0 (Sv v) = .ok v := rfl

theorem expectNum_num (x : Num) : expectNum (.num x) = .ok x := rfl

theorem atLeastVector_Sv_num (x : Num) :
    atLeastVector (Sv (.num x)) = .ok (.arr [1] (.cons (Sv (.num x)) .nil)) := rfl

theorem atLeastVector_consShape (x : ℤ) (xs : List ℤ) (d : PyList) :
    atLeastVector (.arr (x :: xs) d) = .ok (.arr (x :: xs) d) := rfl

theorem encode_intVec_scalar (R : List ℤ) (hR : ∀ r ∈ R, 0 < r) (n : ℤ)
    (hn0 : 0 ≤ n) (hnp : n < prodZ R) :
    encode (some (intVec R)) (Sint n)
      = .ok (.arr [(R.length : ℤ)]
          (.ofList (((encRevZ R.reverse n).reverse).map Sint))) := by
  show encode (some (.arr [(R.length : ℤ)] (.ofList (R.map Sint)))) (Sv (.num (.int n))) = _
  simp only [encode, getShape_arr, ok_bind, List.append_nil]
  rw [show getShape (Sv (.num (.int n))) = .ok [] from rfl]
  simp only [ok_bind, List.append_nil, atLeastVector_Sv_num, atLeastVector_consShape,
    getShape_arr, dataList_arr, PyList.toList_ofList]
  have hd1 : List.drop 1 [(R.length : ℤ)] = [] := rfl
  have hp0 : (prodZ []).toNat = 1 := rfl
  rw [hd1, hp0]
  have hpe : (prodZ ([] : List ℤ)).toNat = 1 := rfl
  simp only [hpe, PyList.toList, List.enum]
  have hr1 : List.range 1 = [0] := rfl
  have hen : List.enumFrom 0 [Sv (.num (.int n))] = [(0, Sv (.num (.int n)))] := rfl
  rw [hr1, hen]
  simp only [List.foldlM_cons, List.foldlM_nil]
  have hsf : sliceFrom (R.map Sint) 0 1 = R.map Sint := by
    simp only [sliceFrom, List.drop_zero, everyNth_one]
  rw [hsf, mapM_data0_intVecElems]
  simp only [ok_bind]
  have hexp : (R.map (fun z => PyVal.num (.int z))).mapM expectNum = .ok (R.map .int) := by
    have h := mapM_ok (R.map (fun z => PyVal.num (.int z))) expectNum
      (fun x => match x with
        | .num m => m
        | _ => Num.int 0)
      (by
        intro x hx
        obtain ⟨z, _, rfl⟩ := List.mem_map.mp hx
        rfl)
    rw [h, List.map_map]
    rfl
  rw [hexp]
  simp only [ok_bind, data0_Sv, expectNum_num]
  rw [encodeScalar_int R hR n hn0 hnp]
  simp only [ok_bind, pure_eq_ok]
  have hset : ∀ (rd : List PyVal) (new : List PyVal), pySetSlice rd (0 * 1 + 0) 1 new = new := by
    intro rd new
    simp [pySetSlice]
  rw [hset]
  rw [if_pos (by simp)]
  have hmm : List.map (fun d => Sv (.num d)) ((encRevZ R.reverse n).reverse.map .int)
      = List.map Sint (encRevZ R.reverse n).reverse := by
    rw [List.map_map]
    rfl
  rw [hmm]
theorem decodeFold (ps : List (ℤ × ℤ)) : ∀ (acc ap : ℤ),
    (ps.map (Prod.map (fun z => PyVal.num (.int z)) (fun z => PyVal.num (.int z)))).foldlM
        decodeStep ((.int acc : Num), (.int ap : Num))
      = .ok (.int ((ps.foldl (fun st p => (st.1 + st.2 * p.2, st.2 * p.1)) (acc, ap)).1),
          .int ((ps.foldl (fun st p => (st.1 + st.2 * p.2, st.2 * p.1)) (acc, ap)).2)) := by
  induction ps with
  | nil =>
    intro acc ap
    rfl
  | cons p ps ih =>
    intro acc ap
    rw [List.map_cons, List.foldlM_cons]
    have hstep : decodeStep ((.int acc : Num), (.int ap : Num))
        (Prod.map (fun z => PyVal.num (.int z)) (fun z => PyVal.num (.int z)) p)
        = .ok ((.int (acc + ap * p.2) : Num), (.int (ap * p.1) : Num)) := rfl
    rw [hstep]
    simp only [ok_bind]
    rw [ih]
    rfl

theorem foldl_decRev : ∀ (ms os : List ℤ) (acc ap : ℤ),
    ((ms.zip os).foldl (fun st p => (st.1 + st.2 * p.2, st.2 * p.1)) (acc, ap)).1
      = acc + ap * decRevZ ms os := by
  intro ms
  induction ms with
  | nil =>
    intro os acc ap
    simp [decRevZ]
  | cons m tl ih =>
    intro os acc ap
    cases os with
    | nil => simp [decRevZ]
    | cons o os =>
      rw [List.zip_cons_cons, List.foldl_cons, ih, decRevZ]
      ring

theorem decodeCell_intVecs (Ra ds : List ℤ) (sa so : List ℤ) (da db : PyList)
    (hda : da = PyList.ofList (Ra.map Sint)) (hdb : db = PyList.ofList (ds.map Sint)) :
    decodeCell (.arr sa da) (.arr so db)
      = .ok (Sint (decRevZ Ra.reverse ds.reverse)) := by
  subst hda hdb
  simp only [decodeCell, dataList, ok_bind, PyList.toList_ofList, mapM_data0_intVecElems]
  have h1 : (Ra.map (fun z => PyVal.num (.int z))).reverse
      = Ra.reverse.map (fun z => PyVal.num (.int z)) := by rw [List.map_reverse]
  have h2 : (ds.map (fun z => PyVal.num (.int z))).reverse
      = ds.reverse.map (fun z => PyVal.num (.int z)) := by rw [List.map_reverse]
  rw [h1, h2, List.zip_map, decodeFold, ok_bind, foldl_decRev]
  rw [zero_add, one_mul]
  rfl
theorem isSimpleScalarB_consShape (x : ℤ) (xs : List ℤ) (d : PyList) :
    isSimpleScalarB (.arr (x :: xs) d) = .ok false := rfl

theorem pyIndexZ_cons0 (x : ℤ) (xs : List ℤ) : pyIndexZ (x :: xs) 0 = .ok x := rfl

theorem pyLast_singleton (x : ℤ) : pyLast [x] = .ok x := rfl

theorem n_cells_rank1 (x : ℤ) (d : PyList) :
    n_cells (.arr [x] d) 1 = .ok (Sv (.arr [x] d)) := rfl

theorem decode_intVec_digits (R ds : List ℤ) (hlen : ds.length = R.length)
    (hk : R.length ≠ 1) :
    decode (some (intVec R)) (.arr [(ds.length : ℤ)] (.ofList (ds.map Sint)))
      = .ok (Sint (decRevZ R.reverse ds.reverse)) := by
  simp only [decode, intVec, getShape_arr, ok_bind]
  have hdl : List.dropLast [(R.length : ℤ)] = [] := rfl
  have hd1 : List.drop 1 [(ds.length : ℤ)] = [] := rfl
  rw [hdl, hd1]
  simp only [atLeastVector_consShape, ok_bind, getShape_arr, isSimpleScalarB_consShape]
  rw [if_neg (by
    simp only [Bool.false_eq_true, false_or]
    intro h
    injection h with h1 _
    exact hk (by exact_mod_cast h1))]
  simp only [pure_eq_ok, ok_bind, getShape_arr, pyIndexZ_cons0, pyLast_singleton]
  rw [if_neg (by
    simp only [ne_eq, Int.natCast_inj, not_not]
    exact_mod_cast hlen)]
  simp only [ok_bind, getShape_arr, dataList_arr, PyList.toList_ofList,
    pyIndexZ_cons0]
  rw [hd1]
  have hpe : (prodZ ([] : List ℤ)).toNat = 1 := rfl
  have hr1 : List.range 1 = [0] := rfl
  rw [hpe, hr1]
  have hsf : sliceFrom (ds.map Sint) 0 1 = ds.map Sint := by
    simp only [sliceFrom, List.drop_zero, everyNth_one]
  simp only [List.map_cons, List.map_nil, hsf, n_cells_rank1, ok_bind]
  have hdSv : dataList (Sv (PyVal.arr [(R.length : ℤ)] (.ofList (R.map Sint))))
      = .ok [PyVal.arr [(R.length : ℤ)] (.ofList (R.map Sint))] := rfl
  rw [hdSv]
  simp only [ok_bind, List.mapM_cons, List.mapM_nil]
  rw [decodeCell_intVecs R ds _ _ _ _ rfl rfl]
  simp only [ok_bind, pure_eq_ok, List.flatten]
  rw [if_neg (by simp)]
  simp [List.flatten]
theorem dataList_Sv (v : PyVal) : dataList (Sv v) = .ok [v] := rfl

theorem decode_intVec (R ds : List ℤ) (hlen : ds.length = R.length) :
    decode (some (intVec R)) (.arr [(ds.length : ℤ)] (.ofList (ds.map Sint)))
      = .ok (Sint (decRevZ R.reverse ds.reverse)) := by
  by_cases hk : R.length = 1
  · obtain ⟨r, rfl⟩ : ∃ r, R = [r] := by
      match R, hk with
      | [r], _ => exact ⟨r, rfl⟩
    obtain ⟨d0, rfl⟩ : ∃ d0, ds = [d0] := by
      match ds, hlen with
      | [d0], _ => exact ⟨d0, rfl⟩
    simp only [decode, intVec, getShape_arr, ok_bind, List.length_singleton,
      Nat.cast_one, List.map_cons, List.map_nil]
    have hdl : List.dropLast [(1 : ℤ)] = [] := rfl
    have hd1 : List.drop 1 [(1 : ℤ)] = [] := rfl
    rw [hdl, hd1]
    simp only [atLeastVector_consShape, ok_bind, getShape_arr, isSimpleScalarB_consShape]
    rw [if_pos (Or.inr trivial)]
    simp only [pyIndexZ_cons0, ok_bind]
    have hrho := rho_intScalar_eval 1 [(1 : ℤ)] (.cons (Sint r) .nil)
      (by simp) (by simp [PyList.toList])
    have hc1 : ceilDiv (prodZ [(1 : ℤ)]) ((PyList.cons (Sint r) PyList.nil).toList.length : ℤ)
        = 1 := rfl
    have hcompute : pyTake (pyListMul (PyList.cons (Sint r) PyList.nil).toList
        (ceilDiv (prodZ [(1 : ℤ)]) ((PyList.cons (Sint r) PyList.nil).toList.length : ℤ)))
        (prodZ [(1 : ℤ)]) = [Sint r] := rfl
    rw [show (PyList.ofList [Sint r]) = PyList.cons (Sint r) PyList.nil from rfl, hrho,
      hcompute]
    simp only [ok_bind, getShape_arr, pyIndexZ_cons0, pyLast_singleton]
    rw [if_neg (by simp)]
    simp only [pure_eq_ok, ok_bind, getShape_arr, dataList_arr, PyList.toList_ofList,
      pyIndexZ_cons0]
    rw [hd1]
    have hpe : (prodZ ([] : List ℤ)).toNat = 1 := rfl
    have hr1 : List.range 1 = [0] := rfl
    rw [hpe, hr1]
    have hsf : sliceFrom ([Sint d0]) 0 1 = [Sint d0] := by
      simp only [sliceFrom, List.drop_zero, everyNth_one]
    simp only [List.map_cons, List.map_nil, hsf, n_cells_rank1, ok_bind]
    have hdSv : dataList (Sv (PyVal.arr [(1 : ℤ)] (.ofList [Sint r])))
        = .ok [PyVal.arr [(1 : ℤ)] (.ofList [Sint r])] := rfl
    rw [show (PyList.ofList [Sint r]) = PyList.cons (Sint r) PyList.nil from rfl] at hdSv ⊢
    rw [hdSv]
    simp only [ok_bind, List.mapM_cons, List.mapM_nil]
    rw [show (PyList.cons (Sint r) PyList.nil) = PyList.ofList ([r].map Sint) from rfl]
    rw [show (PyList.ofList [Sint d0]) = PyList.ofList ([d0].map Sint) from rfl]
    rw [decodeCell_intVecs [r] [d0] _ _ _ _ rfl rfl]
    simp only [ok_bind, pure_eq_ok]
    rw [if_neg (by simp)]
    simp [List.flatten]
  · exact decode_intVec_digits R ds hlen hk
/-- C5: for every radix vector `R` of positive integers and every integer
`n` with `0 ≤ n < product(R)`, decoding (`⊥`) the result of encoding (`⊤`)
`n` against `R` yields the scalar `n`: `decode(R, encode(R, n)) == n`. -/
theorem decode_encode_roundtrip (R : List ℤ) (hR : ∀ r ∈ R, 0 < r) (n : ℤ)
    (hn0 : 0 ≤ n) (hnp : n < prodZ R) :
    (do
      let e ← encode (some (intVec R)) (Sint n)
      decode (some (intVec R)) e) = .ok (Sint n) := by
  rw [encode_intVec_scalar R hR n hn0 hnp]
  simp only [ok_bind]
  have hlen : ((encRevZ R.reverse n).reverse).length = R.length := by
    rw [List.length_reverse, encRevZ_length, List.length_reverse]
  rw [show ((R.length : ℤ)) = (((encRevZ R.reverse n).reverse).length : ℤ) from by
    exact_mod_cast hlen.symm]
  rw [decode_intVec R _ hlen]
  have hv : decRevZ R.reverse ((encRevZ R.reverse n).reverse).reverse = n := by
    rw [List.reverse_reverse]
    exact decRev_encRev R.reverse (fun m hm => hR m (List.mem_reverse.mp hm)) n hn0
      (by rwa [prodZ_reverse])
  rw [hv]

/-- Witness for `decode_encode_roundtrip`: `2 3 4 ⊥ (2 3 4 ⊤ 23)` is `23`. -/
theorem decode_encode_roundtrip_witness :
    (∀ r ∈ ([2, 3, 4] : List ℤ), 0 < r) ∧ ((0 : ℤ) ≤ 23 ∧ (23 : ℤ) < prodZ [2, 3, 4]) ∧
    (do
      let e ← encode (some (intVec [2, 3, 4])) (Sint 23)
      decode (some (intVec [2, 3, 4])) e) = .ok (Sint 23) :=
  ⟨by decide, ⟨by decide, by decide⟩,
    decode_encode_roundtrip [2, 3, 4] (by decide) 23 (by decide) (by decide)⟩

theorem head_not_digit_of_safe (rest : List Ch) (h : numContSafe rest = true) :
    ∀ d, rest.head? ≠ some (Ch.digit d) := by
  intro d hR
  cases rest with
  | nil => simp at hR
  | cons c t =>
    simp only [List.head?_cons, Option.some_inj] at hR
    subst hR
    simp [numContSafe] at h

theorem takeDigits_map_digit (ds : List (Fin 10)) (rest : List Ch)
    (hrest : ∀ d, rest.head? ≠ some (Ch.digit d)) :
    takeDigits (ds.map Ch.digit ++ rest) = (ds, rest) := by
  induction ds with
  | nil =>
    simp only [List.map_nil, List.nil_append]
    cases rest with
    | nil => rfl
    | cons c t =>
      cases c
      case digit d => exact absurd rfl (hrest d)
      all_goals rfl
  | cons d ds ih =>
    simp only [List.map_cons, List.cons_append, takeDigits, List.append_eq]
    rw [ih]

theorem stripNeg_no_hm (cs : List Ch) (h : cs.head? ≠ some Ch.hm) :
    stripNeg cs = (false, cs) := by
  cases cs with
  | nil => rfl
  | cons c t =>
    cases c
    case hm => exact absurd rfl h
    all_goals rfl

theorem stripDec_no_dot (cs : List Ch) (h : cs.head? ≠ some Ch.dot) :
    stripDec cs = ([], cs) := by
  cases cs with
  | nil => rfl
  | cons c t =>
    cases c
    case dot => exact absurd rfl h
    all_goals rfl

theorem grn_render (neg : Bool) (ids : List (Fin 10)) (dec : Option (List (Fin 10)))
    (rest : List Ch) (hrest : numContSafe rest = true) :
    getRealNumber (renderReal neg ids dec ++ rest) = (realLitVal neg ids dec, rest) := by
  have hdig := head_not_digit_of_safe rest hrest
  have hdig2 : ∀ d, (decRender dec ++ rest).head? ≠ some (Ch.digit d) := by
    intro d h
    cases dec with
    | none => exact hdig d h
    | some ds => simp [decRender] at h
  have htd : takeDigits (ids.map Ch.digit ++ (decRender dec ++ rest))
      = (ids, decRender dec ++ rest) := takeDigits_map_digit ids _ hdig2
  have hdec : stripDec (decRender dec ++ rest) = (dec.getD [], rest) := by
    cases dec with
    | some ds =>
      simp only [decRender, List.cons_append, stripDec, Option.getD_some]
      exact takeDigits_map_digit ds rest hdig
    | none =>
      simp only [decRender, List.nil_append, Option.getD_none]
      refine stripDec_no_dot rest ?_
      intro h
      cases rest with
      | nil => simp at h
      | cons c t =>
        simp only [List.head?_cons, Option.some_inj] at h
        subst h
        simp [numContSafe] at hrest
  have hval : ∀ (b : Bool),
      (if digitsVal (dec.getD []) ≠ 0 then
        (Num.float (if b then
            -((digitsVal ids : ℚ) + (digitsVal (dec.getD []) : ℚ) / ((10 : ℚ) ^ (dec.getD []).length))
          else ((digitsVal ids : ℚ) + (digitsVal (dec.getD []) : ℚ) / ((10 : ℚ) ^ (dec.getD []).length))), rest)
      else (Num.int (if b then -(digitsVal ids : ℤ) else (digitsVal ids : ℤ)), rest))
      = (realLitVal b ids dec, rest) := by
    intro b
    unfold realLitVal
    by_cases h : digitsVal (dec.getD []) ≠ 0 <;> simp [h]
  cases neg with
  | true =>
    have hre : renderReal true ids dec ++ rest
        = Ch.hm :: (ids.map Ch.digit ++ (decRender dec ++ rest)) := by
      simp [renderReal, List.append_assoc]
    rw [hre]
    show getRealNumber (Ch.hm :: (ids.map Ch.digit ++ (decRender dec ++ rest))) = _
    unfold getRealNumber
    rw [show stripNeg (Ch.hm :: (ids.map Ch.digit ++ (decRender dec ++ rest)))
      = (true, ids.map Ch.digit ++ (decRender dec ++ rest)) from rfl]
    simp only [htd, hdec]
    exact hval true
  | false =>
    have hre : renderReal false ids dec ++ rest
        = ids.map Ch.digit ++ (decRender dec ++ rest) := by
      simp [renderReal, List.append_assoc]
    rw [hre]
    unfold getRealNumber
    have hp0 : stripNeg (ids.map Ch.digit ++ (decRender dec ++ rest))
        = (false, ids.map Ch.digit ++ (decRender dec ++ rest)) := by
      refine stripNeg_no_hm _ ?_
      intro h
      cases ids with
      | cons d tl => simp at h
      | nil =>
        cases dec with
        | some ds => simp [decRender] at h
        | none =>
          simp only [decRender, List.map_nil, List.nil_append] at h
          cases rest with
          | nil => simp at h
          | cons c t =>
            simp only [List.head?_cons, Option.some_inj] at h
            subst h
            simp [numContSafe] at hrest
    simp only [hp0, htd, hdec]
    exact hval false
theorem realLitVal_neg (ids : List (Fin 10)) (dec : Option (List (Fin 10))) :
    realLitVal true ids dec = numNeg (realLitVal false ids dec) := by
  unfold realLitVal numNeg
  by_cases h : digitsVal (dec.getD []) ≠ 0 <;> simp [h]

theorem readImag_no_jay (cs : List Ch) (h : cs.head? ≠ some Ch.jay) :
    readImag cs = ((Num.int 0 : Num), cs) := by
  cases cs with
  | nil => rfl
  | cons c t =>
    cases c
    case jay => exact absurd rfl h
    all_goals rfl

theorem gnt_render (neg : Bool) (ids : List (Fin 10)) (dec : Option (List (Fin 10)))
    (rest : List Ch) (hrest : numContSafe rest = true)
    (hjay : rest.head? ≠ some Ch.jay) :
    getNumberToken (renderReal neg ids dec ++ rest)
      = .ok (tokOfNum (realLitVal neg ids dec), rest) := by
  unfold getNumberToken
  rw [grn_render neg ids dec rest hrest]
  simp only [readImag_no_jay rest hjay]
  rw [show numTruthy (Num.int 0) = false from rfl]
  simp only [Bool.false_eq_true, if_false]
  unfold realLitVal tokOfNum
  by_cases h : digitsVal (dec.getD []) ≠ 0 <;> simp [h]

theorem gnt_render_cpx (neg : Bool) (ids : List (Fin 10)) (dec : Option (List (Fin 10)))
    (imneg : Bool) (imids : List (Fin 10)) (imdec : Option (List (Fin 10)))
    (rest : List Ch) (hrest : numContSafe rest = true)
    (him : numTruthy (realLitVal imneg imids imdec) = false) :
    getNumberToken (renderReal neg ids dec ++ (Ch.jay :: (renderReal imneg imids imdec ++ rest)))
      = .ok (tokOfNum (realLitVal neg ids dec), rest) := by
  unfold getNumberToken
  rw [grn_render neg ids dec _ (by rfl)]
  simp only [show readImag (Ch.jay :: (renderReal imneg imids imdec ++ rest))
      = getRealNumber (renderReal imneg imids imdec ++ rest) from rfl,
    grn_render imneg imids imdec rest hrest]
  simp only [him, Bool.false_eq_true, if_false]
  unfold realLitVal tokOfNum
  by_cases h : digitsVal (dec.getD []) ≠ 0 <;> simp [h]
/-- C8: tokenizer numeric promotion.  For every rendered numeric literal
followed by a continuation that does not extend it: (1) a leading `¯` glyph
negates the number produced by `get_real_number`; (2) a numeral whose
decimal digit string has value zero produces an INTEGER token; (3) a
complex literal whose imaginary part is zero (falsy) produces exactly the
token of its real part (integer or float), not a COMPLEX token; and (4) in
general the token type is the type of the literal's value. -/
theorem tokenizer_numeric_promotion
    (neg imneg : Bool) (ids imids : List (Fin 10)) (dec imdec : Option (List (Fin 10)))
    (rest : List Ch)
    (hrest : numContSafe rest = true) (hjay : rest.head? ≠ some Ch.jay)
    (him : numTruthy (realLitVal imneg imids imdec) = false) :
    getRealNumber (renderReal true ids dec ++ rest)
      = (numNeg ((getRealNumber (renderReal false ids dec ++ rest)).1), rest) ∧
    (digitsVal (dec.getD []) = 0 →
      getNumberToken (renderReal neg ids dec ++ rest)
        = .ok (.intTok (if neg then -(digitsVal ids : ℤ) else (digitsVal ids : ℤ)), rest)) ∧
    getNumberToken (renderReal neg ids dec ++ (Ch.jay :: (renderReal imneg imids imdec ++ rest)))
      = .ok (tokOfNum (realLitVal neg ids dec), rest) ∧
    getNumberToken (renderReal neg ids dec ++ rest)
      = .ok (tokOfNum (realLitVal neg ids dec), rest) := by
  refine ⟨?_, ?_, gnt_render_cpx neg ids dec imneg imids imdec rest hrest him,
    gnt_render neg ids dec rest hrest hjay⟩
  · rw [grn_render true ids dec rest hrest, grn_render false ids dec rest hrest]
    rw [realLitVal_neg]
  · intro h0
    rw [gnt_render neg ids dec rest hrest hjay]
    unfold realLitVal tokOfNum
    simp [h0]

/-- Witness for `tokenizer_numeric_promotion` at the literal `¯3.0J0`
(and its real part `¯3.0`): both tokenize to the INTEGER token `¯3`. -/
theorem tokenizer_numeric_promotion_witness :
    numContSafe [] = true ∧ (List.head? ([] : List Ch) ≠ some Ch.jay) ∧
    numTruthy (realLitVal false [(0 : Fin 10)] none) = false ∧
    (getRealNumber (renderReal true [(3 : Fin 10)] (some [(0 : Fin 10)]) ++ [])
      = (numNeg ((getRealNumber (renderReal false [(3 : Fin 10)] (some [(0 : Fin 10)]) ++ [])).1), []) ∧
    (digitsVal ((some [(0 : Fin 10)]).getD []) = 0 →
      getNumberToken (renderReal true [(3 : Fin 10)] (some [(0 : Fin 10)]) ++ [])
        = .ok (.intTok (if true then -(digitsVal [(3 : Fin 10)] : ℤ) else (digitsVal [(3 : Fin 10)] : ℤ)), [])) ∧
    getNumberToken (renderReal true [(3 : Fin 10)] (some [(0 : Fin 10)])
        ++ (Ch.jay :: (renderReal false [(0 : Fin 10)] none ++ [])))
      = .ok (tokOfNum (realLitVal true [(3 : Fin 10)] (some [(0 : Fin 10)])), []) ∧
    getNumberToken (renderReal true [(3 : Fin 10)] (some [(0 : Fin 10)]) ++ [])
      = .ok (tokOfNum (realLitVal true [(3 : Fin 10)] (some [(0 : Fin 10)])), [])) :=
  ⟨rfl, by decide, rfl,
    tokenizer_numeric_promotion true false [(3 : Fin 10)] [(0 : Fin 10)]
      (some [(0 : Fin 10)]) none [] rfl (by decide) rfl⟩

end RGSPL
